import Mathlib

/-!
Formal model of the Pensieve document/annotation reconciliation core.

The definitions below are shallow embeddings of the TypeScript source:
* `SessionManager.extractHighlightsFromContentMarks` (src/utils/analysisUtils.ts),
* `createDocumentWithMarks` (src/services/annotation/documentUtils.ts),
* `SessionManager.saveAnalysis`, `SessionManager.updateAnalysedContent`,
  `SessionManager.getEffectiveContent` (src/utils/sessionManager.ts),
* `ClaimsView.handleDelete` (src/components/ClaimsView.tsx),
* `handleEditorChange` (src/pages/EditorPage.tsx / MainPage.tsx),
* the validation and retry logic of `AnthropicService.analyse` /
  `OpenAIService.analyse` (src/services/models).

JavaScript strings are modelled as `List Char`; JavaScript truthiness of an
optional string is "present and non-empty".  Mutable process-wide state (the
highlight registry and the recently-removed id set) is threaded explicitly.
-/

namespace Pensieve

/-- JavaScript strings, modelled as lists of characters. -/
abbrev Str := List Char

/-- JS truthiness of an optional string value: defined and non-empty. -/
def truthy : Option Str → Bool
  | some s => !s.isEmpty
  | none => false

/-- First match of `pat` in `s`, as JS `String.prototype.indexOf`
(`none` when the pattern does not occur). -/
def strIndexOf? (pat : Str) : Str → Option Nat
  | [] => if pat.isPrefixOf [] then some 0 else none
  | c :: rest =>
    if pat.isPrefixOf (c :: rest) then some 0
    else (strIndexOf? pat rest).map (· + 1)

/-- JS `s.indexOf(pat)` with the not-found sentinel `-1`. -/
def jsIndexOf (s pat : Str) : Int :=
  match strIndexOf? pat s with
  | some n => (n : Int)
  | none => -1

/-- JS `s.includes(pat)`. -/
def jsIncludes (s pat : Str) : Bool :=
  (strIndexOf? pat s).isSome

/-- JS `s.substring(0, i)` for a possibly negative `i` (clamped at 0). -/
def jsTake (s : Str) (i : Int) : Str := s.take i.toNat

/-- JS `s.substring(i)` for a possibly negative `i` (clamped at 0). -/
def jsDropFrom (s : Str) (i : Int) : Str := s.drop i.toNat

/-- Lookup in an insertion-ordered association list (JS `Map.get`). -/
def assocGet {κ α : Type} [BEq κ] (m : List (κ × α)) (k : κ) : Option α :=
  (m.find? (fun e => e.1 == k)).map (·.2)

/-- Upsert into an insertion-ordered association list (JS `Map.set`):
an existing key keeps its slot, a new key is appended. -/
def assocSet {κ α : Type} [BEq κ] (m : List (κ × α)) (k : κ) (v : α) : List (κ × α) :=
  if m.any (fun e => e.1 == k) then
    m.map (fun e => if e.1 == k then (k, v) else e)
  else
    m ++ [(k, v)]

/-- The process-wide highlight registry (`src/utils/highlightMap.ts`, whose
source is not part of the snapshot).  Modelled from the spec: a process-wide
mapping from annotation id to its semantic type, with `set` an idempotent
upsert and `get` returning the type or undefined. -/
abbrev Registry := List (Str × Str)

/-- Registry lookup (`getHighlight`).  Modelled from the spec: returns the
type stored for the id, or nothing. -/
def getHighlight (reg : Registry) (id : Str) : Option Str := assocGet reg id

/-- Registry upsert (`setHighlight`).  Modelled from the spec: idempotent
upsert of `id → labelType`. -/
def setHighlight (reg : Registry) (id labelType : Str) : Registry :=
  assocSet reg id labelType

/-- Attributes carried by a document mark (`NodeMark.attrs` in
analysisUtils.ts): optional `id`, `labelType` and `type` strings. -/
structure MarkAttrs where
  id : Option Str
  labelType : Option Str
  type : Option Str
deriving Repr, DecidableEq

/-- A mark attached to a text run (`NodeMark`). -/
structure NodeMark where
  type : Str
  attrs : Option MarkAttrs
deriving Repr, DecidableEq

/-- A document node (`DocNode` in analysisUtils.ts): optional node type,
text, marks and children, mirroring the Remirror JSON tree. -/
inductive DocNode where
  | mk (type : Option Str) (text : Option Str) (marks : Option (List NodeMark))
      (content : Option (List DocNode))
deriving Repr

def DocNode.type : DocNode → Option Str
  | .mk t _ _ _ => t

def DocNode.text : DocNode → Option Str
  | .mk _ x _ _ => x

def DocNode.marks : DocNode → Option (List NodeMark)
  | .mk _ _ m _ => m

def DocNode.content : DocNode → Option (List DocNode)
  | .mk _ _ _ c => c

/-- The document root (`RemirrorJSON`): a `doc` node with optional children. -/
structure RemirrorJSON where
  content : Option (List DocNode)
deriving Repr

/-- A 2D graph position attached to a highlight. -/
structure Position where
  x : Int
  y : Int
deriving Repr, DecidableEq

/-- The denormalized attribute pair synthesized by the model services. -/
structure HighlightAttrs where
  labelType : Str
  type : Str
deriving Repr, DecidableEq

/-- An annotation record (`HighlightWithText` in services/models/types.ts). -/
structure Highlight where
  id : Str
  labelType : Str
  text : Str
  startIndex : Option Nat := none
  endIndex : Option Nat := none
  attrs : Option HighlightAttrs := none
  position : Option Position := none
deriving Repr, DecidableEq

/-- A directed relationship between two highlights
(`Relationship` in utils/relationshipTypes.ts). -/
structure Relationship where
  sourceHighlightId : Str
  targetHighlightId : Str
deriving Repr, DecidableEq

/-! ### Extraction: `SessionManager.extractHighlightsFromContentMarks` -/

/-- The string literal `"entity-reference"`. -/
def entityReferenceStr : Str := "entity-reference".toList

/-- State threaded through an extraction pass: the accumulated highlight
list, the ids seen so far, and the highlight registry. -/
structure ExtractState where
  highlights : List Highlight
  seenIds : List Str
  registry : Registry
deriving Repr

/-- Label-type resolution for a mark whose id has not been seen yet
(analysisUtils.ts lines 637-654): the mark's own `labelType` attribute if
truthy, else its `type` attribute if truthy, else a truthy registry entry,
else the default `"claim"`. -/
def resolveLabelType (attrs : MarkAttrs) (reg : Registry) (id : Str) : Str :=
  if truthy attrs.labelType then attrs.labelType.getD []
  else if truthy attrs.type then attrs.type.getD []
  else
    match getHighlight reg id with
    | some savedType => if savedType.isEmpty then "claim".toList else savedType
    | none => "claim".toList

/-- Processing of a single mark of a text run during extraction: skip marks
that are not entity references, have no truthy id, were already seen, or are
in the recently-removed set; otherwise record a highlight, resolving its
label type and preserving a known position from the existing-highlight map. -/
def processMark (removed : List Str) (existingMap : List (Str × Highlight))
    (textValue : Str) (textPosition : Nat) (st : ExtractState) (mark : NodeMark) :
    ExtractState :=
  match mark.attrs with
  | none => st
  | some attrs =>
    if mark.type != entityReferenceStr then st
    else if !truthy attrs.id then st
    else
      let id := attrs.id.getD []
      if st.seenIds.contains id then st
      else if removed.contains id then st
      else
        let labelType := resolveLabelType attrs st.registry id
        let existing? := assocGet existingMap id
        { highlights := st.highlights ++
            [{ id := id, labelType := labelType, text := textValue,
               startIndex := some textPosition,
               endIndex := some (textPosition + textValue.length),
               position := existing?.bind (·.position) }],
          seenIds := st.seenIds ++ [id],
          registry := setHighlight st.registry id labelType }

mutual

/-- Recursive document walk of the extraction pass (`processNode` in
analysisUtils.ts): a node with truthy text and a marks field contributes its
marks and its text length; otherwise its children are walked, adding one to
the length for paragraph/heading nodes; other nodes contribute nothing. -/
def processNode (removed : List Str) (existingMap : List (Str × Highlight))
    (node : DocNode) (textPosition : Nat) (st : ExtractState) :
    ExtractState × Nat :=
  match node with
  | .mk type? text? marks? content? =>
    match text?, marks? with
    | some t, some ms =>
      if t.isEmpty then
        processNodeContent removed existingMap type? content? textPosition st
      else
        (ms.foldl (processMark removed existingMap t textPosition) st, t.length)
    | some _, none => processNodeContent removed existingMap type? content? textPosition st
    | none, some _ => processNodeContent removed existingMap type? content? textPosition st
    | none, none => processNodeContent removed existingMap type? content? textPosition st

/-- The child-walking branch of `processNode`. -/
def processNodeContent (removed : List Str) (existingMap : List (Str × Highlight))
    (type? : Option Str) (content? : Option (List DocNode)) (textPosition : Nat)
    (st : ExtractState) : ExtractState × Nat :=
  match content? with
  | some children =>
    let r := processNodes removed existingMap children textPosition st
    (r.1,
      r.2 + (if type? == some "paragraph".toList || type? == some "heading".toList
             then 1 else 0))
  | none => (st, 0)

/-- Sequential walk of a child list, accumulating the running offset. -/
def processNodes (removed : List Str) (existingMap : List (Str × Highlight))
    (nodes : List DocNode) (textPosition : Nat) (st : ExtractState) :
    ExtractState × Nat :=
  match nodes with
  | [] => (st, 0)
  | n :: rest =>
    let r1 := processNode removed existingMap n textPosition st
    let r2 := processNodes removed existingMap rest (textPosition + r1.2) r1.1
    (r2.1, r1.2 + r2.2)

end

/-- The existing-highlight map built at the start of an extraction pass
(last entry wins for a duplicated id, as with JS `Map.set`). -/
def mkExistingMap (existing : List Highlight) : List (Str × Highlight) :=
  existing.foldl (fun m h => assocSet m h.id h) []

/-- `SessionManager.extractHighlightsFromContentMarks`: walk the document,
collecting one highlight per first occurrence of an entity-reference mark id,
skipping recently-removed ids, and keeping the registry in sync.  Note that
each top-level node is processed with running offset 0, as in the source.
Returns the highlight list and the updated registry. -/
def extractHighlightsFromContentMarks (content : RemirrorJSON)
    (existingHighlights : List Highlight) (removed : List Str) (reg : Registry) :
    List Highlight × Registry :=
  let existingMap := mkExistingMap existingHighlights
  let st0 : ExtractState := ⟨[], [], reg⟩
  let st :=
    match content.content with
    | some nodes =>
      nodes.foldl (fun st n => (processNode removed existingMap n 0 st).1) st0
    | none => st0
  (st.highlights, st.registry)

/-! ### Injection: `createDocumentWithMarks` (documentUtils.ts)

The registry side effect of the source (`setHighlight` for every annotation
at entry) does not influence the returned document and is not modelled here.
-/

/-- A highlight range manipulated inside `createDocumentWithMarks` (the
element type of its `existingHighlights` / `allHighlights` arrays).  The
`originalText` field is stored by the source but never read afterwards. -/
structure InjHL where
  id : Str
  labelType : Str
  text : Str
  originalText : Option Str := none
  startIndex : Int
  endIndex : Int
deriving Repr, DecidableEq

/-- An id/labelType pair attached to a text segment. -/
structure SegHL where
  id : Str
  labelType : Str
deriving Repr, DecidableEq

/-- A text segment of a paragraph being rebuilt (the `TextSegment` interface):
its text, the id/labelType pairs of the highlights covering it, and its start
offset within the paragraph. -/
structure TextSegment where
  text : Str
  highlights : List SegHL
  startPos : Int
deriving Repr, DecidableEq

/-- The concatenated text of a paragraph's child nodes
(`paragraph.content?.map((node) => node.text || "").join("") || ""`). -/
def paragraphTextOf : Option (List DocNode) → Str
  | some ns => (ns.map (fun n => n.text.getD [])).flatten
  | none => []

/-- Whether some node of the paragraph carries a mark whose `attrs.id` equals
the given id (the `hasExistingMark` scan of the first pass; note it accepts
marks of any type). -/
def hasMarkWithId (nodes : List DocNode) (id : Str) : Bool :=
  nodes.any (fun n =>
    match n.marks with
    | some ms => ms.any (fun m =>
        match m.attrs with
        | some a => a.id == some id
        | none => false)
    | none => false)

/-- The first-pass assignment of annotations to one paragraph: those with
truthy text that either occur as a substring of the paragraph text or have an
existing mark in the paragraph. -/
def annotationsFor (para : DocNode) (anns : List Highlight) : List Highlight :=
  let ptext := paragraphTextOf para.content
  anns.filter (fun a =>
    !a.text.isEmpty &&
      (jsIncludes ptext a.text || hasMarkWithId (para.content.getD []) a.id))

/-- The first pass of `createDocumentWithMarks`: paragraph index to the list
of annotations assigned to it, in insertion order; non-paragraph nodes and
paragraphs with no assigned annotations get no entry. -/
def annotationsByParagraph (paras : List DocNode) (anns : List Highlight) :
    List (Nat × List Highlight) :=
  paras.enum.filterMap (fun e =>
    if e.2.type == some "paragraph".toList then
      let assigned := annotationsFor e.2 anns
      if assigned.isEmpty then none else some (e.1, assigned)
    else none)

/-- One node step of the `existingHighlights` collection loop of the
injection pass: a node with a marks field and truthy text contributes, for
each entity-reference mark with attrs, an entry when both its id and its
`labelType || type` resolution are non-empty; the offset accumulates over
every node's text length. -/
def collectStep (acc : List InjHL × Nat) (n : DocNode) : List InjHL × Nat :=
  let pos := acc.2
  let acc1 :=
    match n.marks, n.text with
    | some ms, some t =>
      if t.isEmpty then acc.1
      else
        acc.1 ++ (ms.filterMap (fun m =>
          match m.attrs with
          | some a =>
            if m.type != entityReferenceStr then none
            else
              let id := a.id.getD []
              let labelType :=
                if truthy a.labelType then a.labelType.getD []
                else if truthy a.type then a.type.getD []
                else []
              if !id.isEmpty && !labelType.isEmpty then
                some { id := id, labelType := labelType, text := t,
                       originalText := some t,
                       startIndex := (pos : Int),
                       endIndex := (pos : Int) + (t.length : Int) }
              else none
          | none => none))
    | _, _ => acc.1
  (acc1, pos + (n.text.getD []).length)

/-- The `existingHighlights` ranges collected from a paragraph's nodes. -/
def collectExisting (nodes : List DocNode) : List InjHL :=
  (nodes.foldl collectStep ([], 0)).1

/-- Merging one assigned annotation into the `allHighlights` list: an entry
with the same id has its text overwritten when it differs; otherwise a new
entry is added at the first substring match of the annotation text in the
paragraph, or dropped with a warning when there is none. -/
def mergeAnnot (ptext : Str) (all : List InjHL) (annot : Highlight) :
    List InjHL :=
  match all.findIdx? (fun h => h.id == annot.id) with
  | some i =>
    match all[i]? with
    | some h =>
      if h.text != annot.text then all.set i { h with text := annot.text }
      else all
    | none => all
  | none =>
    match strIndexOf? annot.text ptext with
    | some ti =>
      all ++ [{ id := annot.id, labelType := annot.labelType, text := annot.text,
                startIndex := (ti : Int),
                endIndex := (ti : Int) + (annot.text.length : Int) }]
    | none => all

/-- Splitting of one segment at a highlight's boundaries: optional text
before, the highlighted text (taken from the highlight record, not the
segment), and optional text after. -/
def splitSegment (seg : TextSegment) (h : InjHL) : List TextSegment :=
  let relStart := h.startIndex - seg.startPos
  let relEnd := h.endIndex - seg.startPos
  (if relStart > 0 then
    [{ text := jsTake seg.text relStart, highlights := seg.highlights,
       startPos := seg.startPos }]
   else []) ++
  [{ text := h.text,
     highlights := seg.highlights ++ [⟨h.id, h.labelType⟩],
     startPos := seg.startPos + relStart }] ++
  (if relEnd < (seg.text.length : Int) then
    [{ text := jsDropFrom seg.text relEnd, highlights := seg.highlights,
       startPos := seg.startPos + relEnd }]
   else [])

/-- Splice of a highlight into the first segment containing its start offset
(the main loop's search with `break`); fails when no segment contains it. -/
def splitFirstMatching : List TextSegment → InjHL → Option (List TextSegment)
  | [], _ => none
  | seg :: rest, h =>
    if 0 ≤ h.startIndex - seg.startPos ∧
        h.startIndex - seg.startPos < (seg.text.length : Int) then
      some (splitSegment seg h ++ rest)
    else
      (splitFirstMatching rest h).map (seg :: ·)

/-- Fallback placement: overwrite the text of the first segment whose
highlight set already contains the id (keeping its offsets and highlights). -/
def replaceFirstById : List TextSegment → Str → Str → List TextSegment
  | [], _, _ => []
  | seg :: rest, id, newText =>
    if seg.highlights.any (fun h => h.id == id) then
      { seg with text := newText } :: rest
    else
      seg :: replaceFirstById rest id newText

/-- `findAnnotationById`: first annotation of the input list with the id. -/
def findAnnotationById (anns : List Highlight) (id : Str) : Option Highlight :=
  anns.find? (fun a => a.id == id)

/-- One iteration of the segment-splitting loop: split at the first segment
containing the highlight's start, else fall back to an id-based overwrite
using the annotation list, else leave the segments unchanged. -/
def applyHighlight (anns : List Highlight) (segs : List TextSegment)
    (h : InjHL) : List TextSegment :=
  match splitFirstMatching segs h with
  | some segs' => segs'
  | none =>
    match findAnnotationById anns h.id with
    | some annot => replaceFirstById segs h.id annot.text
    | none => segs

/-- Rebuild of a segment as a Remirror text node; a segment with no
highlights carries no marks field. -/
def segmentToNode (seg : TextSegment) : DocNode :=
  DocNode.mk (some "text".toList) (some seg.text)
    (if seg.highlights.isEmpty then none
     else some (seg.highlights.map (fun h =>
       ⟨entityReferenceStr, some ⟨some h.id, some h.labelType, some h.labelType⟩⟩)))
    none

/-- The second pass of `createDocumentWithMarks` for one paragraph with its
assigned annotations: collect existing highlighted ranges, merge the assigned
annotations, sort by start offset (JS stable sort), split the paragraph's
base segment at every highlight, and rebuild the paragraph content. -/
def injectParagraph (anns : List Highlight) (para : DocNode)
    (paraAnns : List Highlight) : DocNode :=
  match para with
  | .mk type? text? marks? content? =>
    match content? with
    | none => para
    | some nodes =>
      if type? != some "paragraph".toList then para
      else if paraAnns.isEmpty then para
      else
        let ptext := paragraphTextOf (some nodes)
        let existing := collectExisting nodes
        let all := paraAnns.foldl (mergeAnnot ptext) existing
        let sorted := all.insertionSort (fun a b => a.startIndex ≤ b.startIndex)
        let segs := sorted.foldl (applyHighlight anns)
          [{ text := ptext, highlights := [], startPos := 0 }]
        DocNode.mk type? text? marks? (some (segs.map segmentToNode))

/-- `createDocumentWithMarks`: with no annotations the document is returned
unchanged; otherwise every paragraph that was assigned annotations in the
first pass has its content rebuilt by `injectParagraph`. -/
def createDocumentWithMarks (originalContent : RemirrorJSON)
    (anns : List Highlight) : RemirrorJSON :=
  if anns.isEmpty then originalContent
  else
    match originalContent.content with
    | none => originalContent
    | some paras =>
      let byPara := annotationsByParagraph paras anns
      ⟨some (paras.enum.map (fun e =>
        match assocGet byPara e.1 with
        | some assigned => injectParagraph anns e.2 assigned
        | none => e.2))⟩

/-! ### Session state: `SessionManager` (sessionManager.ts) -/

/-- The analysed-content record of a session. -/
structure AnalysedContent where
  modelName : Str
  promptId : Str
  content : RemirrorJSON
  highlights : List Highlight
  relationships : List Relationship
  highlightCount : Nat
deriving Repr

/-- The raw input content of a session. -/
structure InputContent where
  content : RemirrorJSON
deriving Repr

/-- A session record (the canonical state owned by the Sync Coordinator). -/
structure Session where
  title : Str
  status : Str
  highlightCount : Nat
  inputContent : InputContent
  analysedContent : Option AnalysedContent := none
deriving Repr

/-- Error surfaced by session operations on missing state. -/
inductive StateError where
  | sessionNotFound
  | updateTargetMissing
deriving Repr, DecidableEq

/-- The result shape of `getEffectiveContent`. -/
structure EffectiveContent where
  content : RemirrorJSON
  highlights : Option (List Highlight)
  relationships : Option (List Relationship)
deriving Repr

/-- `SessionManager.getEffectiveContent`: fails when the session is missing;
returns the analysed triple when the status is `analysis` and analysed
content exists; otherwise returns the raw input content. -/
def getEffectiveContent (session? : Option Session) :
    Except StateError EffectiveContent :=
  match session? with
  | none => .error .sessionNotFound
  | some s =>
    if s.status == "analysis".toList && s.analysedContent.isSome then
      match s.analysedContent with
      | some ac => .ok ⟨ac.content, some ac.highlights, some ac.relationships⟩
      | none => .ok ⟨s.inputContent.content, none, none⟩
    else
      .ok ⟨s.inputContent.content, none, none⟩

/-- `SessionManager.updateAnalysedContent`: fails when the session is missing
or has no analysed content; otherwise overwrites the analysed content's
document, highlight list, relationship list and highlight count. -/
def updateAnalysedContent (session? : Option Session) (content : RemirrorJSON)
    (highlights : List Highlight) (relationships : List Relationship) :
    Except StateError Session :=
  match session? with
  | none => .error .updateTargetMissing
  | some s =>
    match s.analysedContent with
    | none => .error .updateTargetMissing
    | some ac =>
      let ac' := { ac with content := content, highlights := highlights,
                           relationships := relationships,
                           highlightCount := highlights.length }
      .ok { s with analysedContent := some ac' }

/-- The plain text used by `saveAnalysis` for sorting: paragraph node texts
joined with `""` inside a paragraph and `"\n"` between paragraphs (an absent
child list contributes the empty string, as JS `join` renders `undefined`). -/
def fullTextOf (content : RemirrorJSON) : Str :=
  match content.content with
  | none => []
  | some ps =>
    List.intercalate ['\n'] (ps.map (fun p =>
      match p.content with
      | some ns => (ns.map (fun n => n.text.getD [])).flatten
      | none => []))

/-- The sort key of `saveAnalysis`: first match of the highlight text in the
full text, `-1` when not found. -/
def sortKey (fullText : Str) (h : Highlight) : Int := jsIndexOf fullText h.text

/-- The highlight sort of `saveAnalysis`
(`[...].sort((a, b) => fullText.indexOf(a.text) - fullText.indexOf(b.text))`):
JS `Array.prototype.sort` is a stable sort with respect to the comparator,
modelled as an insertion sort that keeps ties in input order. -/
def sortHighlightsByPosition (content : RemirrorJSON) (hs : List Highlight) :
    List Highlight :=
  let fullText := fullTextOf content
  hs.insertionSort (fun a b => sortKey fullText a ≤ sortKey fullText b)

/-- The session update computed by `SessionManager.saveAnalysis`: sets the
status to `analysis`, sorts the highlights by text position, re-renders the
document via `createDocumentWithMarks`, and replaces the analysed content. -/
def saveAnalysisUpdate (session : Session) (modelName promptId : Str)
    (content : RemirrorJSON) (highlights : List Highlight)
    (relationships : List Relationship) : Session :=
  let sortedHighlights := sortHighlightsByPosition content highlights
  let contentWithHighlights := createDocumentWithMarks content sortedHighlights
  { session with
    status := "analysis".toList,
    highlightCount := highlights.length,
    analysedContent := some
      { modelName := modelName, promptId := promptId,
        content := contentWithHighlights,
        highlights := sortedHighlights,
        relationships := relationships,
        highlightCount := highlights.length } }

/-! ### Claims view: `ClaimsView.handleDelete` -/

/-- Whether the item being deleted in the claims view is a claim or an
evidence entry. -/
inductive DeleteKind where
  | claim
  | evidence
deriving Repr, DecidableEq

/-- The `{document, highlights, relationships}` triple persisted by the
claims-view delete handler. -/
structure DeleteResult where
  content : RemirrorJSON
  highlights : List Highlight
  relationships : List Relationship
deriving Repr

/-- `ClaimsView.handleDelete`: drop the highlight with the given id; for a
claim, drop the relationships targeting it; for an evidence entry, drop the
relationships sourced at it; re-render the fetched document with the
remaining highlights. -/
def handleDelete (sessionContent : RemirrorJSON) (highlights : List Highlight)
    (relationships : List Relationship) (id : Str) (kind : DeleteKind) :
    DeleteResult :=
  let updatedHighlights := highlights.filter (fun h => h.id != id)
  let updatedRelationships :=
    match kind with
    | .claim => relationships.filter (fun r => r.targetHighlightId != id)
    | .evidence => relationships.filter (fun r => r.sourceHighlightId != id)
  ⟨createDocumentWithMarks sessionContent updatedHighlights,
    updatedHighlights, updatedRelationships⟩

/-! ### Editor change handling: `handleEditorChange`
(EditorPage.tsx, identical in MainPage.tsx for analysis mode) -/

/-- The page mode of the editor. -/
inductive EditorMode where
  | input
  | analysis
deriving Repr, DecidableEq

/-- The canonical-state write performed by one editor change event. -/
inductive WriteAction where
  | noWrite
  | updateInput (content : RemirrorJSON)
  | updateAnalysed (content : RemirrorJSON) (highlights : List Highlight)
      (relationships : List Relationship)
deriving Repr

/-- The empty-update guard of `handleEditorChange`: no top-level content, an
empty top-level list, or a first child without content. -/
def isEmptyUpdate (json : RemirrorJSON) : Bool :=
  match json.content with
  | none => true
  | some [] => true
  | some (first :: _) =>
    match first.content with
    | none => true
    | some [] => true
    | some (_ :: _) => false

/-- `handleEditorChange`: an empty update writes nothing; input mode writes
the document as input content; analysis mode (with analysed content present)
writes the document together with an empty highlight list when the event is
flagged skip-extraction (or a removal is pending), and otherwise with the
extracted highlights when some highlight text changed, or the current
highlights when none did; relationships are always carried over. -/
def handleEditorChange (mode : EditorMode) (session? : Option Session)
    (pendingHighlightRemoval : Bool) (removed : List Str) (reg : Registry)
    (json : RemirrorJSON) (skipExtraction : Bool) : WriteAction :=
  if isEmptyUpdate json then .noWrite
  else
    match mode with
    | .input => .updateInput json
    | .analysis =>
      match session? with
      | none => .noWrite
      | some session =>
        match session.analysedContent with
        | none => .noWrite
        | some ac =>
          let currentHighlights := ac.highlights
          let currentRelationships := ac.relationships
          if skipExtraction || pendingHighlightRemoval then
            .updateAnalysed json [] currentRelationships
          else
            let extracted :=
              (extractHighlightsFromContentMarks json currentHighlights
                removed reg).1
            let existingMap := mkExistingMap currentHighlights
            let hasHighlightModifications := extracted.any (fun h =>
              match assocGet existingMap h.id with
              | some existing => existing.text != h.text
              | none => false)
            if hasHighlightModifications then
              .updateAnalysed json extracted currentRelationships
            else
              .updateAnalysed json currentHighlights currentRelationships

/-! ### Model-service validation and retry
(`AnthropicService.analyse` / `OpenAIService.analyse`) -/

/-- A JSON field that is expected to hold an array: it can be absent (or
falsy), present but not an array, or an array of decoded values. -/
inductive JField (α : Type) where
  | missing
  | notArray
  | arr (xs : List α)
deriving Repr, DecidableEq

/-- A raw highlight from the model response; an absent or empty string field
is modelled as the empty string (both are falsy in the source's checks). -/
structure RawHighlightR where
  id : Str
  labelType : Str
  text : Str
deriving Repr, DecidableEq

/-- The parsed JSON payload of a model response, together with the preview of
the raw content used in error messages. -/
structure RawResponse where
  isObject : Bool
  highlights : JField RawHighlightR
  relationships : JField Relationship
  rawPreview : Str
deriving Repr, DecidableEq

/-- A typed validation failure of the model response. -/
inductive AnalysisError where
  | notJsonObject (preview : Str)
  | missingHighlights (preview : Str)
  | invalidHighlight (h : RawHighlightR)
  | invalidRelationships
deriving Repr, DecidableEq

/-- The validated response handed back by a model service. -/
structure ModelResponse where
  highlights : List Highlight
  relationships : List Relationship
deriving Repr, DecidableEq

/-- Validation and normalization of the raw highlights: each must carry
non-empty `id`, `labelType` and `text` (else the whole call fails), and each
accepted one is normalized with the denormalized attrs pair for its type. -/
def validateHighlights : List RawHighlightR → Except AnalysisError (List Highlight)
  | [] => .ok []
  | h :: rest =>
    if h.id.isEmpty || h.labelType.isEmpty || h.text.isEmpty then
      .error (.invalidHighlight h)
    else
      (validateHighlights rest).map (fun hs =>
        { id := h.id, labelType := h.labelType, text := h.text,
          attrs := some ⟨h.labelType, h.labelType⟩ } :: hs)

/-- The response validation shared by both model services: the payload must
be an object with an array field `highlights`; every highlight must pass
`validateHighlights`; a missing `relationships` field defaults to the empty
array while a present non-array one fails. -/
def validateModelResponse (r : RawResponse) : Except AnalysisError ModelResponse :=
  if !r.isObject then .error (.notJsonObject r.rawPreview)
  else
    match r.highlights with
    | .missing => .error (.missingHighlights r.rawPreview)
    | .notArray => .error (.missingHighlights r.rawPreview)
    | .arr hs =>
      match validateHighlights hs with
      | .error e => .error e
      | .ok validHighlights =>
        match r.relationships with
        | .missing => .ok ⟨validHighlights, []⟩
        | .notArray => .error .invalidRelationships
        | .arr rels => .ok ⟨validHighlights, rels⟩

/-- The step `performAnalysis` takes on the canonical state once the service
call settles: a validation failure leaves the session untouched and reports
failure; a validated response is committed via `saveAnalysisUpdate`. -/
def performAnalysisStep (session : Session) (modelName promptId : Str)
    (content : RemirrorJSON) (r : RawResponse) : Session × Bool :=
  match validateModelResponse r with
  | .error _ => (session, false)
  | .ok resp =>
    (saveAnalysisUpdate session modelName promptId content
      resp.highlights resp.relationships, true)

/-- The per-attempt timeout of the model services
(`setTimeout(() => controller.abort(), 30000)`). -/
def requestTimeoutMs : Nat := 30000

/-- What one attempt of the external call does, as observed by the retry
loop: a 2xx response with a parsed payload, a network-level `TypeError`
mentioning `fetch`, an abort fired by the 30s timeout timer, some other
failure, or a non-2xx response carrying its raw body text. -/
inductive AttemptOutcome where
  | ok (resp : RawResponse)
  | fetchTypeError
  | abortTimeout
  | otherFailure
  | httpError (status : Nat) (errorText : Str)
deriving Repr, DecidableEq

/-- The error surfaced by `executeRequest` when it gives up. -/
inductive RequestError where
  | abortError
  | otherError
  | networkError
  | apiError (message : Str)
  | invalid (e : AnalysisError)
deriving Repr, DecidableEq

/-- The message of the typed API error thrown for a non-2xx response.  In
the source the `throw` built from the parsed `error.message` is raised
inside its own `try` block, so the `catch (parseError)` clause catches that
very throw and rethrows the status form; every non-2xx response therefore
surfaces `... API error: Status {status} - {errorText}` with the raw body
text, whether or not the body parses as JSON. -/
def apiErrorMessage (status : Nat) (errorText : Str) : Str :=
  "Anthropic API error: Status ".toList ++ (toString status).toList ++
    " - ".toList ++ errorText

/-- The observable behaviour of one `executeRequest` run: its final result,
the number of attempts made, and the backoff delays waited between them. -/
structure ExecTrace where
  result : Except RequestError ModelResponse
  attemptsMade : Nat
  delays : List Nat
deriving Repr

/-- The retry loop `executeRequest(attempt, maxAttempts)` of both model
services: only a network-level `TypeError` mentioning `fetch` is retried,
and only while `attempt < maxAttempts`, after a linear backoff of
`(attempt + 1) * 1000` ms; every other failure — including an abort from the
timeout timer, a non-2xx response, and a validation failure — is surfaced
immediately. -/
def executeRequest (oracle : Nat → AttemptOutcome) (attempt maxAttempts : Nat) :
    ExecTrace :=
  match oracle attempt with
  | .ok resp =>
    match validateModelResponse resp with
    | .ok m => ⟨.ok m, 1, []⟩
    | .error e => ⟨.error (.invalid e), 1, []⟩
  | .httpError status errorText =>
    ⟨.error (.apiError (apiErrorMessage status errorText)), 1, []⟩
  | .abortTimeout => ⟨.error .abortError, 1, []⟩
  | .otherFailure => ⟨.error .otherError, 1, []⟩
  | .fetchTypeError =>
    if h : attempt < maxAttempts then
      let nextAttempt := attempt + 1
      let rest := executeRequest oracle nextAttempt maxAttempts
      ⟨rest.result, rest.attemptsMade + 1, nextAttempt * 1000 :: rest.delays⟩
    else ⟨.error .networkError, 1, []⟩
termination_by maxAttempts - attempt

/-- The entry point `executeRequest()` with its default arguments
(`attempt = 0`, `maxAttempts = 2`). -/
def analyseCall (oracle : Nat → AttemptOutcome) : ExecTrace :=
  executeRequest oracle 0 2

/-! ### Concrete fixtures used by the claim theorems -/

/-- A plain text node. -/
def textNode (t : Str) : DocNode :=
  DocNode.mk (some "text".toList) (some t) none none

/-- A text node carrying one entity-reference mark with id and label type. -/
def markedNode (id lt t : Str) : DocNode :=
  DocNode.mk (some "text".toList) (some t)
    (some [⟨entityReferenceStr, some ⟨some id, some lt, some lt⟩⟩]) none

/-- A paragraph node with the given children. -/
def paragraphNode (ns : List DocNode) : DocNode :=
  DocNode.mk (some "paragraph".toList) none none (some ns)

/-- A one-paragraph document with one marked run. -/
def docA : RemirrorJSON :=
  ⟨some [paragraphNode [markedNode "h1".toList "claim".toList "Oranges are great".toList]]⟩

/-- A document whose first paragraph is empty and whose second paragraph is
not. -/
def docEmptyFirst : RemirrorJSON :=
  ⟨some [paragraphNode [], paragraphNode [textNode "Later text".toList]]⟩

/-- A highlight fixture. -/
def hl1 : Highlight :=
  { id := "h1".toList, labelType := "claim".toList,
    text := "Oranges are great".toList }

/-- A relationship fixture (h2 supports h1). -/
def rel1 : Relationship := ⟨"h2".toList, "h1".toList⟩

/-- Analysed content holding one highlight and one relationship. -/
def acA : AnalysedContent :=
  ⟨"m".toList, "p".toList, docA, [hl1], [rel1], 1⟩

/-- A session in analysis status with analysed content `acA`. -/
def sessionA : Session :=
  ⟨"t".toList, "analysis".toList, 1, ⟨docA⟩, some acA⟩

/-- A session in input status that nevertheless carries analysed content. -/
def sessionInputWithAnalysed : Session :=
  ⟨"t".toList, "input".toList, 1, ⟨docA⟩, some acA⟩

/-- Claim highlight `c1` of the deletion scenario. -/
def hlC1 : Highlight :=
  { id := "c1".toList, labelType := "claim".toList, text := "claim one".toList }

/-- A second claim highlight `c2`. -/
def hlC2 : Highlight :=
  { id := "c2".toList, labelType := "claim".toList, text := "claim two".toList }

/-- Evidence highlight `e1` of the deletion scenario. -/
def hlE1 : Highlight :=
  { id := "e1".toList, labelType := "evidence".toList,
    text := "evidence one".toList }

/-- The relationship e1 → c1 (e1 supports c1). -/
def relE1C1 : Relationship := ⟨"e1".toList, "c1".toList⟩

/-- A relationship c1 → c2 whose source is the claim c1. -/
def relC1C2 : Relationship := ⟨"c1".toList, "c2".toList⟩

/-- A document with no paragraphs. -/
def emptyDoc : RemirrorJSON := ⟨some []⟩

/-! ### C10: empty editor updates write nothing -/

/-- C10: for every editor change event whose document has no top-level
content, an empty top-level list, or a first paragraph without content, the
change handler performs no canonical-state write at all, whatever the mode,
session, pending flags or skip flag — in particular even when later
paragraphs are non-empty. -/
theorem editorChange_empty_update_writes_nothing
    (mode : EditorMode) (session? : Option Session) (pending : Bool)
    (removed : List Str) (reg : Registry) (json : RemirrorJSON) (skip : Bool)
    (h : json.content = none ∨ json.content = some [] ∨
      ∃ first rest, json.content = some (first :: rest) ∧
        (first.content = none ∨ first.content = some [])) :
    handleEditorChange mode session? pending removed reg json skip = .noWrite := by
  have hempty : isEmptyUpdate json = true := by
    obtain ⟨c⟩ := json
    rcases h with h | h | ⟨first, rest, h, hf⟩
    · simp only [RemirrorJSON.content] at h
      simp [isEmptyUpdate, h]
    · simp only [RemirrorJSON.content] at h
      simp [isEmptyUpdate, h]
    · simp only [RemirrorJSON.content] at h
      obtain ⟨ft, fx, fm, fc⟩ := first
      rcases hf with hf | hf <;>
        simp only [DocNode.content] at hf <;>
        simp [isEmptyUpdate, h, hf, DocNode.content]
  simp [handleEditorChange, hempty]

/-- C10 witness: a document whose first paragraph is empty but whose second
paragraph holds text triggers no write, in analysis mode with a live
session. -/
theorem editorChange_empty_update_witness :
    handleEditorChange .analysis (some sessionA) false [] [] docEmptyFirst true =
      .noWrite :=
  editorChange_empty_update_writes_nothing .analysis (some sessionA) false [] []
    docEmptyFirst true
    (Or.inr (Or.inr ⟨paragraphNode [], [paragraphNode [textNode "Later text".toList]],
      rfl, Or.inr rfl⟩))

/-! ### C1: the skip-extraction write does not preserve the annotation list -/

/-- C1 counterexample: with one stored highlight and one stored relationship,
a skip-extraction change event writes the new document and the stored
relationships but an empty highlight list — the stored annotation list
(`[hl1]`, non-empty) is not preserved. -/
theorem skip_extraction_write_clears_stored_highlights :
    handleEditorChange .analysis (some sessionA) false [] [] docA true =
      .updateAnalysed docA [] [rel1] ∧ acA.highlights = [hl1] ∧ [hl1] ≠ [] := by
  refine ⟨rfl, rfl, by simp⟩

/-- C1 (amended): for every skip-extraction change event with a non-empty
document in analysis mode on a session with analysed content, the write
updates the document and carries the stored relationships over unchanged,
but persists an empty annotation list (so the stored annotations are kept
only when that list was already empty). -/
theorem editorChange_skip_extraction_writes_empty_list
    (session : Session) (ac : AnalysedContent) (pending : Bool)
    (removed : List Str) (reg : Registry) (json : RemirrorJSON)
    (hac : session.analysedContent = some ac)
    (hne : isEmptyUpdate json = false) :
    handleEditorChange .analysis (some session) pending removed reg json true =
      .updateAnalysed json [] ac.relationships := by
  simp [handleEditorChange, hne, hac]

/-- C1 witness: the amended statement evaluated on the concrete session with
one stored highlight and one stored relationship. -/
theorem editorChange_skip_extraction_witness :
    handleEditorChange .analysis (some sessionA) false [] [] docA true =
      .updateAnalysed docA [] acA.relationships :=
  editorChange_skip_extraction_writes_empty_list sessionA acA false [] [] docA
    rfl rfl

/-! ### C4: claims-view deletion prunes relationships directionally -/

/-- C4 counterexample: deleting claim `c1` when the relationship list holds
`c1 → c2` (with `c1` as source) leaves that relationship in place — deletion
does not prune relationships referencing the deleted annotation as source
when it is deleted as a claim. -/
theorem delete_claim_keeps_source_relationships :
    (handleDelete emptyDoc [hlC1, hlC2] [relC1C2] ("c1".toList) .claim).relationships
      = [relC1C2] ∧
    relC1C2.sourceHighlightId = "c1".toList ∧
    (∀ h ∈ (handleDelete emptyDoc [hlC1, hlC2] [relC1C2] ("c1".toList) .claim).highlights,
      h.id ≠ "c1".toList) := by
  refine ⟨rfl, rfl, ?_⟩
  intro h hmem
  simp [handleDelete, hlC1, hlC2] at hmem
  simp [hmem]

/-- C4 (amended): deleting via the claims view removes the annotation from
the annotation list; deleting a claim prunes exactly the relationships that
reference it as target, and deleting an evidence entry prunes exactly those
that reference it as source.  In the two-annotation scenario `{c1: claim}`,
`{e1: evidence}` with the single relationship `e1 → c1`, deleting `c1` (as a
claim) yields an empty relationship list, and deleting `e1` (as evidence)
also yields an empty relationship list. -/
theorem handleDelete_prunes_directionally
    (doc : RemirrorJSON) (hs : List Highlight) (rs : List Relationship) (id : Str) :
    ((handleDelete doc hs rs id .claim).highlights
        = hs.filter (fun h => h.id != id) ∧
      (handleDelete doc hs rs id .evidence).highlights
        = hs.filter (fun h => h.id != id) ∧
      (handleDelete doc hs rs id .claim).relationships
        = rs.filter (fun r => r.targetHighlightId != id) ∧
      (handleDelete doc hs rs id .evidence).relationships
        = rs.filter (fun r => r.sourceHighlightId != id) ∧
      (∀ r ∈ (handleDelete doc hs rs id .claim).relationships,
        r.targetHighlightId ≠ id) ∧
      (∀ r ∈ (handleDelete doc hs rs id .evidence).relationships,
        r.sourceHighlightId ≠ id)) ∧
    (handleDelete emptyDoc [hlC1, hlE1] [relE1C1] ("c1".toList) .claim).relationships
      = [] ∧
    (handleDelete emptyDoc [hlC1, hlE1] [relE1C1] ("e1".toList) .evidence).relationships
      = [] := by
  refine ⟨⟨rfl, rfl, rfl, rfl, ?_, ?_⟩, rfl, rfl⟩
  · intro r hmem
    simp only [handleDelete, List.mem_filter] at hmem
    simpa using hmem.2
  · intro r hmem
    simp only [handleDelete, List.mem_filter] at hmem
    simpa using hmem.2

/-- C4 witness: the amended statement applied at the concrete deletion
scenario yields the empty relationship list for the claim deletion. -/
theorem handleDelete_prunes_witness :
    (handleDelete emptyDoc [hlC1, hlE1] [relE1C1] ("c1".toList) .claim).relationships
      = [] :=
  (handleDelete_prunes_directionally emptyDoc [hlC1, hlE1] [relE1C1]
    ("c1".toList)).2.1

/-! ### C9: effective content requires analysis status -/

/-- C9 counterexample: a session in `input` status carrying analysed content
(with a non-empty highlight list) gets its raw input content back from
`getEffectiveContent`, with no highlights and no relationships — not the
analysed triple the claim promises whenever analysed content is present. -/
theorem getEffectiveContent_ignores_analysed_in_input_status :
    getEffectiveContent (some sessionInputWithAnalysed) =
      .ok ⟨docA, none, none⟩ ∧
    sessionInputWithAnalysed.analysedContent = some acA ∧
    acA.highlights = [hl1] := by
  exact ⟨rfl, rfl, rfl⟩

/-- C9 (amended): `getEffectiveContent` fails with the session-not-found
error for a missing session; returns the analysed `(document, annotations,
relationships)` triple when the session's status is `analysis` and analysed
content is present; and returns the raw input content (with no annotation or
relationship lists) otherwise. -/
theorem getEffectiveContent_characterization (session? : Option Session) :
    (session? = none →
      getEffectiveContent session? = .error .sessionNotFound) ∧
    (∀ s ac, session? = some s → s.analysedContent = some ac →
      s.status = "analysis".toList →
      getEffectiveContent session? =
        .ok ⟨ac.content, some ac.highlights, some ac.relationships⟩) ∧
    (∀ s, session? = some s →
      (s.status ≠ "analysis".toList ∨ s.analysedContent = none) →
      getEffectiveContent session? =
        .ok ⟨s.inputContent.content, none, none⟩) := by
  refine ⟨?_, ?_, ?_⟩
  · rintro rfl
    rfl
  · rintro s ac rfl hac hst
    simp [getEffectiveContent, hac, hst]
  · rintro s rfl h
    have hb : ¬((s.status == "analysis".toList && s.analysedContent.isSome) = true) := by
      rcases h with h | h
      · simp only [Bool.and_eq_true, beq_iff_eq]
        exact fun hc => absurd hc.1 h
      · simp [h]
    simp only [getEffectiveContent]
    rw [if_neg hb]

/-- C9 witness: the amended statement evaluated at a missing session, at the
analysis-status session `sessionA`, and at the input-status session carrying
analysed content. -/
theorem getEffectiveContent_witness :
    getEffectiveContent (none : Option Session) = .error .sessionNotFound ∧
    getEffectiveContent (some sessionA) =
      .ok ⟨acA.content, some acA.highlights, some acA.relationships⟩ ∧
    getEffectiveContent (some sessionInputWithAnalysed) =
      .ok ⟨sessionInputWithAnalysed.inputContent.content, none, none⟩ := by
  refine ⟨(getEffectiveContent_characterization none).1 rfl,
    (getEffectiveContent_characterization (some sessionA)).2.1 sessionA acA rfl rfl rfl,
    (getEffectiveContent_characterization (some sessionInputWithAnalysed)).2.2
      sessionInputWithAnalysed rfl (Or.inl ?_)⟩
  intro h
  simpa [sessionInputWithAnalysed] using congrArg (fun l => l.take 5) h

/-! ### C3: extraction never resurrects recently-removed ids -/

/-- Any highlight present after one mark step either was present before or
carries an id outside the recently-removed set. -/
theorem processMark_not_removed (removed : List Str) (em : List (Str × Highlight))
    (tv : Str) (tp : Nat) (st : ExtractState) (mark : NodeMark)
    (hinv : ∀ h ∈ st.highlights, h.id ∉ removed) :
    ∀ h ∈ (processMark removed em tv tp st mark).highlights, h.id ∉ removed := by
  intro h hmem
  obtain ⟨mtype, mattrs⟩ := mark
  cases mattrs with
  | none =>
    simp only [processMark] at hmem
    exact hinv h hmem
  | some attrs =>
    simp only [processMark] at hmem
    by_cases h1 : (mtype != entityReferenceStr) = true
    · rw [if_pos h1] at hmem
      exact hinv h hmem
    · rw [if_neg h1] at hmem
      by_cases h2 : (!truthy attrs.id) = true
      · rw [if_pos h2] at hmem
        exact hinv h hmem
      · rw [if_neg h2] at hmem
        by_cases h3 : st.seenIds.contains (attrs.id.getD []) = true
        · rw [if_pos h3] at hmem
          exact hinv h hmem
        · rw [if_neg h3] at hmem
          by_cases h4 : removed.contains (attrs.id.getD []) = true
          · rw [if_pos h4] at hmem
            exact hinv h hmem
          · rw [if_neg h4] at hmem
            simp only [List.mem_append, List.mem_singleton] at hmem
            rcases hmem with hmem | rfl
            · exact hinv h hmem
            · simpa using h4

/-- The mark-fold of a text run preserves the removed-id invariant. -/
theorem foldl_processMark_not_removed (removed : List Str)
    (em : List (Str × Highlight)) (tv : Str) (tp : Nat) (ms : List NodeMark) :
    ∀ st : ExtractState, (∀ h ∈ st.highlights, h.id ∉ removed) →
      ∀ h ∈ (ms.foldl (processMark removed em tv tp) st).highlights,
        h.id ∉ removed := by
  induction ms with
  | nil => exact fun st hinv => hinv
  | cons m ms ih =>
    intro st hinv
    exact ih _ (processMark_not_removed removed em tv tp st m hinv)

mutual

/-- The document walk preserves the removed-id invariant (node case). -/
theorem processNode_not_removed (removed : List Str) (em : List (Str × Highlight))
    (node : DocNode) (tp : Nat) (st : ExtractState)
    (hinv : ∀ h ∈ st.highlights, h.id ∉ removed) :
    ∀ h ∈ (processNode removed em node tp st).1.highlights, h.id ∉ removed := by
  obtain ⟨type?, text?, marks?, content?⟩ := node
  cases text? with
  | some t =>
    cases marks? with
    | some ms =>
      by_cases ht : t.isEmpty
      · rw [processNode, if_pos ht]
        exact processNodeContent_not_removed removed em type? content? tp st hinv
      · rw [processNode, if_neg ht]
        exact foldl_processMark_not_removed removed em t tp ms st hinv
    | none =>
      rw [processNode]
      exact processNodeContent_not_removed removed em type? content? tp st hinv
  | none =>
    cases marks? with
    | some ms =>
      rw [processNode]
      exact processNodeContent_not_removed removed em type? content? tp st hinv
    | none =>
      rw [processNode]
      exact processNodeContent_not_removed removed em type? content? tp st hinv

/-- The document walk preserves the removed-id invariant (content case). -/
theorem processNodeContent_not_removed (removed : List Str)
    (em : List (Str × Highlight)) (type? : Option Str)
    (content? : Option (List DocNode)) (tp : Nat) (st : ExtractState)
    (hinv : ∀ h ∈ st.highlights, h.id ∉ removed) :
    ∀ h ∈ (processNodeContent removed em type? content? tp st).1.highlights,
      h.id ∉ removed := by
  cases content? with
  | some children =>
    rw [processNodeContent]
    exact processNodes_not_removed removed em children tp st hinv
  | none =>
    rw [processNodeContent]
    exact hinv

/-- The document walk preserves the removed-id invariant (list case). -/
theorem processNodes_not_removed (removed : List Str)
    (em : List (Str × Highlight)) (nodes : List DocNode) (tp : Nat)
    (st : ExtractState)
    (hinv : ∀ h ∈ st.highlights, h.id ∉ removed) :
    ∀ h ∈ (processNodes removed em nodes tp st).1.highlights, h.id ∉ removed := by
  cases nodes with
  | nil =>
    rw [processNodes]
    exact hinv
  | cons n rest =>
    rw [processNodes]
    exact processNodes_not_removed removed em rest _ _
      (processNode_not_removed removed em n tp st hinv)

end

/-- C3: for every document, prior highlight list, registry and id `x` in the
recently-removed set, extraction returns no record with id `x`, even when
the document still contains an entity-reference mark with that id. -/
theorem extract_skips_recently_removed (content : RemirrorJSON)
    (existing : List Highlight) (removed : List Str) (reg : Registry) (x : Str)
    (hx : x ∈ removed) :
    ∀ h ∈ (extractHighlightsFromContentMarks content existing removed reg).1,
      h.id ≠ x := by
  have main : ∀ h ∈ (extractHighlightsFromContentMarks content existing removed reg).1,
      h.id ∉ removed := by
    unfold extractHighlightsFromContentMarks
    cases hc : content.content with
    | none => intro h hmem; simp at hmem
    | some nodes =>
      have gen : ∀ (ns : List DocNode) (st : ExtractState),
          (∀ h ∈ st.highlights, h.id ∉ removed) →
          ∀ h ∈ (ns.foldl (fun st n =>
              (processNode removed (mkExistingMap existing) n 0 st).1) st).highlights,
            h.id ∉ removed := by
        intro ns
        induction ns with
        | nil => exact fun st hinv => hinv
        | cons n rest ih =>
          intro st hinv
          exact ih _ (processNode_not_removed removed (mkExistingMap existing) n 0 st hinv)
      intro h hmem
      exact gen nodes ⟨[], [], reg⟩ (by simp) h hmem
  intro h hmem heq
  exact (main h hmem) (heq ▸ hx)

/-- A document that still contains a stray mark for the recently-removed id
`x`. -/
def strayDoc : RemirrorJSON :=
  ⟨some [paragraphNode [markedNode "x".toList "claim".toList "stray text".toList]]⟩

/-- C3 witness: with `x` in the recently-removed set, extracting the stray
document yields no record with id `x`. -/
theorem extract_skips_recently_removed_witness :
    "x".toList ∈ ["x".toList] ∧
    ∀ h ∈ (extractHighlightsFromContentMarks strayDoc [] ["x".toList] []).1,
      h.id ≠ "x".toList :=
  ⟨List.mem_singleton.mpr rfl,
    extract_skips_recently_removed strayDoc [] ["x".toList] [] "x".toList
      (List.mem_singleton.mpr rfl)⟩

/-! ### C5: validation of the external annotation response -/

/-- A raw highlight with some empty required field makes `validateHighlights`
fail. -/
theorem validateHighlights_error_of_invalid (hs : List RawHighlightR)
    (hbad : ∃ h ∈ hs, h.id = [] ∨ h.labelType = [] ∨ h.text = []) :
    ∃ e, validateHighlights hs = .error e := by
  induction hs with
  | nil => simp at hbad
  | cons h rest ih =>
    by_cases hh : (h.id.isEmpty || h.labelType.isEmpty || h.text.isEmpty) = true
    · exact ⟨.invalidHighlight h, by simp [validateHighlights, hh]⟩
    · have hrest : ∃ h ∈ rest, h.id = [] ∨ h.labelType = [] ∨ h.text = [] := by
        rcases hbad with ⟨g, hg, hcase⟩
        rcases List.mem_cons.mp hg with rfl | hg
        · exact absurd (by rcases hcase with hc | hc | hc <;> simp [hc]) hh
        · exact ⟨g, hg, hcase⟩
      obtain ⟨e, he⟩ := ih hrest
      exact ⟨e, by simp [validateHighlights, hh, he, Except.map]⟩

/-- All-valid raw highlights validate to their normalized forms, in order. -/
theorem validateHighlights_ok_of_valid (hs : List RawHighlightR)
    (hok : ∀ h ∈ hs, ¬(h.id = [] ∨ h.labelType = [] ∨ h.text = [])) :
    validateHighlights hs = .ok (hs.map (fun h =>
      { id := h.id, labelType := h.labelType, text := h.text,
        attrs := some ⟨h.labelType, h.labelType⟩ })) := by
  induction hs with
  | nil => rfl
  | cons h rest ih =>
    have hh : (h.id.isEmpty || h.labelType.isEmpty || h.text.isEmpty) = false := by
      have := hok h (List.mem_cons_self h rest)
      push_neg at this
      simp [this.1, this.2.1, this.2.2]
    simp [validateHighlights, hh, ih (fun g hg => hok g (List.mem_cons_of_mem h hg)),
      Except.map]

/-- A successful highlight validation only produces normalized records. -/
theorem validateHighlights_normalizes (hs : List RawHighlightR)
    (out : List Highlight) (hout : validateHighlights hs = .ok out) :
    ∀ h ∈ out, h.attrs = some ⟨h.labelType, h.labelType⟩ := by
  induction hs generalizing out with
  | nil =>
    simp only [validateHighlights] at hout
    cases hout
    simp
  | cons h rest ih =>
    simp only [validateHighlights] at hout
    by_cases hh : (h.id.isEmpty || h.labelType.isEmpty || h.text.isEmpty) = true
    · rw [if_pos hh] at hout
      cases hout
    · rw [if_neg hh] at hout
      cases hrec : validateHighlights rest with
      | error e => rw [hrec] at hout; cases hout
      | ok tl =>
        rw [hrec] at hout
        cases hout
        intro g hg
        rcases List.mem_cons.mp hg with rfl | hg
        · rfl
        · exact ih tl hrec g hg

/-- C5: for every raw service response that parsed to an object — a missing
or non-array `highlights` field fails with a typed error carrying the
payload preview and leaves the canonical state unmodified; a highlight with
an empty id, labelType or text fails; with all highlights valid, a missing
`relationships` field defaults to the empty list while a present non-array
one fails; an empty `highlights` array with no `relationships` field
succeeds, committing an empty annotation set and an empty relationship list;
and every accepted highlight carries the denormalized attrs pair for its
type. -/
theorem analyse_validates_model_response
    (s : Session) (mn pid : Str) (c : RemirrorJSON) (r : RawResponse)
    (hobj : r.isObject = true) :
    ((r.highlights = .missing ∨ r.highlights = .notArray) →
      validateModelResponse r = .error (.missingHighlights r.rawPreview) ∧
      performAnalysisStep s mn pid c r = (s, false)) ∧
    (∀ hs, r.highlights = .arr hs →
      (∃ h ∈ hs, h.id = [] ∨ h.labelType = [] ∨ h.text = []) →
      (∃ e, validateModelResponse r = .error e) ∧
      performAnalysisStep s mn pid c r = (s, false)) ∧
    (∀ hs, r.highlights = .arr hs →
      (∀ h ∈ hs, ¬(h.id = [] ∨ h.labelType = [] ∨ h.text = [])) →
      r.relationships = .missing →
      validateModelResponse r = .ok ⟨hs.map (fun h =>
        { id := h.id, labelType := h.labelType, text := h.text,
          attrs := some ⟨h.labelType, h.labelType⟩ }), []⟩) ∧
    (∀ hs, r.highlights = .arr hs →
      (∀ h ∈ hs, ¬(h.id = [] ∨ h.labelType = [] ∨ h.text = [])) →
      r.relationships = .notArray →
      validateModelResponse r = .error .invalidRelationships) ∧
    (r.highlights = .arr [] → r.relationships = .missing →
      validateModelResponse r = .ok ⟨[], []⟩ ∧
      (∃ ac, (performAnalysisStep s mn pid c r).1.analysedContent = some ac ∧
        ac.highlights = [] ∧ ac.relationships = [] ∧
        (performAnalysisStep s mn pid c r).2 = true)) ∧
    (∀ out, validateModelResponse r = .ok out →
      ∀ h ∈ out.highlights, h.attrs = some ⟨h.labelType, h.labelType⟩) := by
  refine ⟨?_, ?_, ?_, ?_, ?_, ?_⟩
  · intro hmiss
    have hv : validateModelResponse r = .error (.missingHighlights r.rawPreview) := by
      rcases hmiss with hmiss | hmiss <;> simp [validateModelResponse, hobj, hmiss]
    exact ⟨hv, by simp [performAnalysisStep, hv]⟩
  · intro hs harr hbad
    obtain ⟨e, he⟩ := validateHighlights_error_of_invalid hs hbad
    have hv : validateModelResponse r = .error e := by
      simp [validateModelResponse, hobj, harr, he]
    exact ⟨⟨e, hv⟩, by simp [performAnalysisStep, hv]⟩
  · intro hs harr hok hrel
    simp [validateModelResponse, hobj, harr, hrel,
      validateHighlights_ok_of_valid hs hok]
  · intro hs harr hok hrel
    simp [validateModelResponse, hobj, harr, hrel,
      validateHighlights_ok_of_valid hs hok]
  · intro harr hrel
    have hv : validateModelResponse r = .ok ⟨[], []⟩ := by
      simp [validateModelResponse, hobj, harr, hrel, validateHighlights]
    have hstep : performAnalysisStep s mn pid c r =
        (saveAnalysisUpdate s mn pid c [] [], true) := by
      simp [performAnalysisStep, hv]
    refine ⟨hv, ?_⟩
    rw [hstep]
    exact ⟨_, rfl, rfl, rfl, rfl⟩
  · intro out hout
    cases harr : r.highlights with
    | missing => simp [validateModelResponse, hobj, harr] at hout
    | notArray => simp [validateModelResponse, hobj, harr] at hout
    | arr hs =>
      cases hv : validateHighlights hs with
      | error e => simp [validateModelResponse, hobj, harr, hv] at hout
      | ok vh =>
        cases hrel : r.relationships with
        | missing =>
          have h2 : validateModelResponse r = .ok ⟨vh, []⟩ := by
            simp [validateModelResponse, hobj, harr, hv, hrel]
          rw [h2] at hout
          injection hout with h3
          rw [← h3]
          exact validateHighlights_normalizes hs vh hv
        | notArray =>
          have h2 : validateModelResponse r = .error .invalidRelationships := by
            simp [validateModelResponse, hobj, harr, hv, hrel]
          rw [h2] at hout
          cases hout
        | arr rels =>
          have h2 : validateModelResponse r = .ok ⟨vh, rels⟩ := by
            simp [validateModelResponse, hobj, harr, hv, hrel]
          rw [h2] at hout
          injection hout with h3
          rw [← h3]
          exact validateHighlights_normalizes hs vh hv

/-- A response object whose `highlights` field is missing. -/
def rawMissingHighlights : RawResponse :=
  ⟨true, .missing, .missing, "not an array".toList⟩

/-- A response object with an empty `highlights` array and no
`relationships` field. -/
def rawEmptyOk : RawResponse := ⟨true, .arr [], .missing, "ok".toList⟩

/-- C5 witness: the missing-`highlights` rejection (state unmodified) and
the empty-`highlights` success (empty annotation and relationship lists)
evaluated on concrete responses. -/
theorem analyse_validates_witness :
    (validateModelResponse rawMissingHighlights =
        .error (.missingHighlights rawMissingHighlights.rawPreview) ∧
      performAnalysisStep sessionA "m".toList "p".toList docA rawMissingHighlights =
        (sessionA, false)) ∧
    (validateModelResponse rawEmptyOk = .ok ⟨[], []⟩ ∧
      ∃ ac, (performAnalysisStep sessionA "m".toList "p".toList docA rawEmptyOk).1.analysedContent
          = some ac ∧
        ac.highlights = [] ∧ ac.relationships = [] ∧
        (performAnalysisStep sessionA "m".toList "p".toList docA rawEmptyOk).2 = true) :=
  ⟨(analyse_validates_model_response sessionA "m".toList "p".toList docA
      rawMissingHighlights rfl).1 (Or.inl rfl),
    (analyse_validates_model_response sessionA "m".toList "p".toList docA
      rawEmptyOk rfl).2.2.2.2.1 rfl rfl⟩

/-! ### C7: saveAnalysis sorts by first-match offset, stably -/

/-- The sort key is never below the not-found sentinel `-1`. -/
theorem sortKey_ge_neg_one (ft : Str) (h : Highlight) : -1 ≤ sortKey ft h := by
  unfold sortKey jsIndexOf
  cases strIndexOf? h.text ft with
  | none => simp
  | some n => simp; omega

/-- Filtering an ordered insert by an exact key value: the inserted element
lands in front of its key class, everything else is untouched. -/
theorem filter_key_orderedInsert {α : Type} (key : α → Int) (k : Int) (x : α)
    (s : List α) :
    (List.orderedInsert (fun a b => key a ≤ key b) x s).filter
        (fun y => key y == k) =
      if key x = k then x :: s.filter (fun y => key y == k)
      else s.filter (fun y => key y == k) := by
  induction s with
  | nil =>
    by_cases hx : key x = k <;> simp [List.orderedInsert, hx]
  | cons y ys ih =>
    by_cases hxy : key x ≤ key y
    · simp only [List.orderedInsert, if_pos hxy]
      by_cases hx : key x = k <;> by_cases hy : key y = k <;>
        simp [List.filter_cons, hx, hy]
    · simp only [List.orderedInsert, if_neg hxy]
      by_cases hy : key y = k
      · have hx : ¬(key x = k) := by omega
        simp [List.filter_cons, hy, hx, ih]
      · by_cases hx : key x = k <;> simp [List.filter_cons, hy, hx, ih]

/-- Filtering an insertion sort by an exact key value returns the same
elements in the same order as filtering the input: the key-ascending sort is
stable. -/
theorem filter_key_insertionSort {α : Type} (key : α → Int) (k : Int)
    (l : List α) :
    (List.insertionSort (fun a b => key a ≤ key b) l).filter
        (fun y => key y == k) = l.filter (fun y => key y == k) := by
  induction l with
  | nil => rfl
  | cons x xs ih =>
    simp only [List.insertionSort]
    rw [filter_key_orderedInsert]
    by_cases hx : key x = k <;> simp [List.filter_cons, hx, ih]

/-- In a key-sorted list whose keys are at least `-1`, the elements with the
sentinel key `-1` form a prefix. -/
theorem filter_sentinel_prefix {α : Type} (key : α → Int) (l : List α)
    (hsort : l.Pairwise (fun a b => key a ≤ key b))
    (hge : ∀ a ∈ l, -1 ≤ key a) :
    l.filter (fun y => key y == -1) ++ l.filter (fun y => key y != -1) = l := by
  induction l with
  | nil => rfl
  | cons x xs ih =>
    rcases List.pairwise_cons.mp hsort with ⟨hx, hxs⟩
    have ihx := ih hxs (fun a ha => hge a (List.mem_cons_of_mem x ha))
    by_cases hk : key x = -1
    · simp [List.filter_cons, hk, ihx]
    · have hgt : ∀ b ∈ xs, key b ≠ -1 := by
        intro b hb
        have h1 := hx b hb
        have h2 := hge x (List.mem_cons_self x xs)
        omega
      have h1 : xs.filter (fun y => key y == -1) = [] := by
        rw [List.filter_eq_nil_iff]
        intro b hb
        simpa using hgt b hb
      have h2 : xs.filter (fun y => key y != -1) = xs := by
        rw [List.filter_eq_self]
        intro b hb
        simpa using hgt b hb
      simp [List.filter_cons, hk, h1, h2]

/-- C7: the highlight list committed to canonical state by `saveAnalysis` is
the stable ascending sort of the validated list by the first-occurrence
offset of each highlight's text in the extracted plain text: it is the list
stored in the analysed content, a permutation of the input, pairwise ordered
by the sort key, stable (filtering by any key value preserves the input
order), and the not-found (`-1`) highlights form a prefix, in front of every
found one. -/
theorem saveAnalysis_sorts_by_first_match (session : Session) (mn pid : Str)
    (content : RemirrorJSON) (hs : List Highlight) (rels : List Relationship) :
    ((saveAnalysisUpdate session mn pid content hs rels).analysedContent).map
        (fun ac => ac.highlights) = some (sortHighlightsByPosition content hs) ∧
    List.Perm (sortHighlightsByPosition content hs) hs ∧
    (sortHighlightsByPosition content hs).Pairwise
      (fun a b => sortKey (fullTextOf content) a ≤ sortKey (fullTextOf content) b) ∧
    (∀ k : Int, (sortHighlightsByPosition content hs).filter
        (fun h => sortKey (fullTextOf content) h == k) =
      hs.filter (fun h => sortKey (fullTextOf content) h == k)) ∧
    (sortHighlightsByPosition content hs).filter
        (fun h => sortKey (fullTextOf content) h == -1) ++
      (sortHighlightsByPosition content hs).filter
        (fun h => sortKey (fullTextOf content) h != -1) =
      sortHighlightsByPosition content hs := by
  have hperm : List.Perm (sortHighlightsByPosition content hs) hs :=
    List.perm_insertionSort _ hs
  have hsorted : (sortHighlightsByPosition content hs).Pairwise
      (fun a b => sortKey (fullTextOf content) a ≤ sortKey (fullTextOf content) b) := by
    haveI : IsTotal Highlight
        (fun a b => sortKey (fullTextOf content) a ≤ sortKey (fullTextOf content) b) :=
      ⟨fun a b => Int.le_total _ _⟩
    haveI : IsTrans Highlight
        (fun a b => sortKey (fullTextOf content) a ≤ sortKey (fullTextOf content) b) :=
      ⟨fun _ _ _ hab hbc => le_trans hab hbc⟩
    exact List.sorted_insertionSort _ hs
  refine ⟨rfl, hperm, hsorted, ?_, ?_⟩
  · intro k
    exact filter_key_insertionSort _ k hs
  · exact filter_sentinel_prefix _ _ hsorted
      (fun a _ => sortKey_ge_neg_one (fullTextOf content) a)

/-! ### C6: retry policy of the external call -/

/-- C6 counterexample: a call whose attempts are aborted by the 30-second
timeout timer makes exactly one attempt and surfaces the abort error — the
timeout abort is NOT treated as a retryable network failure, while a
network-level fetch `TypeError` under the same loop is retried up to 3
attempts. -/
theorem timeout_abort_is_not_retried :
    (analyseCall (fun _ => .abortTimeout)).attemptsMade = 1 ∧
    (analyseCall (fun _ => .abortTimeout)).result = .error .abortError ∧
    (analyseCall (fun _ => .fetchTypeError)).attemptsMade = 3 := by
  have hf2 : executeRequest (fun _ => .fetchTypeError) 2 2
      = ⟨.error .networkError, 1, []⟩ := by
    simp [executeRequest]
  have hf1 : executeRequest (fun _ => .fetchTypeError) 1 2
      = ⟨.error .networkError, 2, [2000]⟩ := by
    conv_lhs => rw [executeRequest]
    simp [hf2]
  have hf0 : executeRequest (fun _ => .fetchTypeError) 0 2
      = ⟨.error .networkError, 3, [1000, 2000]⟩ := by
    conv_lhs => rw [executeRequest]
    simp [hf1]
  refine ⟨?_, ?_, ?_⟩
  · simp [analyseCall, executeRequest]
  · simp [analyseCall, executeRequest]
  · rw [show analyseCall (fun _ => .fetchTypeError)
      = executeRequest (fun _ => .fetchTypeError) 0 2 from rfl, hf0]

/-- C6 (amended): the external call makes at most 3 attempts (2 retries);
it retries exactly when the failure is a network-level fetch `TypeError`,
with linear backoff of `attempt * 1000` ms; an abort raised by the 30-second
per-attempt timer is NOT retried and surfaces as the abort error; a non-2xx
response is never retried and surfaces immediately as a typed error whose
message carries the status code and the raw body text (the same status form
whether or not the body parses, since the parsed-message throw is swallowed
by its own catch clause); the per-attempt timeout constant is 30000 ms. -/
theorem analyse_retry_policy (oracle : Nat → AttemptOutcome) :
    (analyseCall oracle).attemptsMade ≤ 3 ∧
    (2 ≤ (analyseCall oracle).attemptsMade ↔ oracle 0 = .fetchTypeError) ∧
    (analyseCall oracle).delays =
      (List.range ((analyseCall oracle).attemptsMade - 1)).map
        (fun i => (i + 1) * 1000) ∧
    (oracle 0 = .abortTimeout →
      analyseCall oracle = ⟨.error .abortError, 1, []⟩) ∧
    (∀ status errorText, oracle 0 = .httpError status errorText →
      analyseCall oracle =
        ⟨.error (.apiError ("Anthropic API error: Status ".toList ++
          (toString status).toList ++ " - ".toList ++ errorText)), 1, []⟩) ∧
    requestTimeoutMs = 30000 := by
  have hbase : ∀ a m, (oracle a ≠ .fetchTypeError ∨ ¬ a < m) →
      (executeRequest oracle a m).attemptsMade = 1 ∧
      (executeRequest oracle a m).delays = [] := by
    intro a m h
    cases ho : oracle a with
    | ok resp =>
      cases hv : validateModelResponse resp with
      | error e => simp [executeRequest, ho, hv]
      | ok mr => simp [executeRequest, ho, hv]
    | fetchTypeError =>
      have hge : ¬ a < m := by
        rcases h with h | h
        · exact absurd ho h
        · exact h
      simp [executeRequest, ho, hge]
    | abortTimeout => simp [executeRequest, ho]
    | otherFailure => simp [executeRequest, ho]
    | httpError s b => simp [executeRequest, ho]
  have habort : ∀ a m, oracle a = .abortTimeout →
      executeRequest oracle a m = ⟨.error .abortError, 1, []⟩ := by
    intro a m h
    simp [executeRequest, h]
  have hhttp : ∀ a m status errorText, oracle a = .httpError status errorText →
      executeRequest oracle a m =
        ⟨.error (.apiError ("Anthropic API error: Status ".toList ++
          (toString status).toList ++ " - ".toList ++ errorText)), 1, []⟩ := by
    intro a m status errorText h
    simp [executeRequest, h, apiErrorMessage]
  have hstep : ∀ a m, oracle a = .fetchTypeError → a < m →
      executeRequest oracle a m =
        ⟨(executeRequest oracle (a + 1) m).result,
          (executeRequest oracle (a + 1) m).attemptsMade + 1,
          (a + 1) * 1000 :: (executeRequest oracle (a + 1) m).delays⟩ := by
    intro a m h hlt
    conv_lhs => rw [executeRequest]
    rw [h]
    simp [hlt]
  by_cases h0 : oracle 0 = .fetchTypeError
  · have hs0 := hstep 0 2 h0 (by omega)
    by_cases h1 : oracle 1 = .fetchTypeError
    · have hs1 := hstep 1 2 h1 (by omega)
      have hb2 := hbase 2 2 (Or.inr (by omega))
      have hA : (analyseCall oracle).attemptsMade = 3 := by
        simp [analyseCall, hs0, hs1, hb2.1]
      have hD : (analyseCall oracle).delays = [1000, 2000] := by
        simp [analyseCall, hs0, hs1, hb2.2]
      refine ⟨by omega, by simp [hA, h0], ?_, ?_, ?_, rfl⟩
      · rw [hD, hA]
        decide
      · intro habs
        rw [habs] at h0
        simp at h0
      · intro status body habs
        rw [habs] at h0
        simp at h0
    · have hb1 := hbase 1 2 (Or.inl h1)
      have hA : (analyseCall oracle).attemptsMade = 2 := by
        simp [analyseCall, hs0, hb1.1]
      have hD : (analyseCall oracle).delays = [1000] := by
        simp [analyseCall, hs0, hb1.2]
      refine ⟨by omega, by simp [hA, h0], ?_, ?_, ?_, rfl⟩
      · rw [hD, hA]
        decide
      · intro habs
        rw [habs] at h0
        simp at h0
      · intro status body habs
        rw [habs] at h0
        simp at h0
  · have hb0 := hbase 0 2 (Or.inl h0)
    have hA : (analyseCall oracle).attemptsMade = 1 := hb0.1
    have hD : (analyseCall oracle).delays = [] := hb0.2
    refine ⟨by omega, ?_, ?_, ?_, ?_, rfl⟩
    · rw [hA]
      constructor
      · intro h
        omega
      · intro h
        exact absurd h h0
    · rw [hD, hA]
      decide
    · intro habs
      exact habort 0 2 habs
    · intro status body habs
      exact hhttp 0 2 status body habs

/-- C6 witness: the amended statement evaluated at a first-attempt timeout
abort and at a first-attempt 404 response with body text `nope`: the
surfaced message carries the status and the body. -/
theorem analyse_retry_policy_witness :
    analyseCall (fun _ => .abortTimeout) = ⟨.error .abortError, 1, []⟩ ∧
    analyseCall (fun _ => .httpError 404 "nope".toList) =
      ⟨.error (.apiError "Anthropic API error: Status 404 - nope".toList),
        1, []⟩ := by
  constructor
  · exact (analyse_retry_policy (fun _ => .abortTimeout)).2.2.2.1 rfl
  · have h := (analyse_retry_policy
      (fun _ => .httpError 404 "nope".toList)).2.2.2.2.1 404 "nope".toList rfl
    rw [h]
    rfl

/-! ### Marked-run documents: the doc family of C2 and C8

A `MarkRun` is a text run carrying exactly one entity-reference mark; a
document of this family is a list of paragraphs, each a list of such runs.
-/

/-- A text run with exactly one entity-reference mark. -/
structure MarkRun where
  attrs : MarkAttrs
  text : Str
deriving Repr, DecidableEq

/-- The id carried by a run's mark (defaulting like the source's
`mark.attrs.id` access). -/
def MarkRun.idOf (r : MarkRun) : Str := r.attrs.id.getD []

/-- The document node of a marked run. -/
def MarkRun.toNode (r : MarkRun) : DocNode :=
  DocNode.mk (some "text".toList) (some r.text)
    (some [⟨entityReferenceStr, some r.attrs⟩]) none

/-- A paragraph of marked runs. -/
def paraNodeOf (rs : List MarkRun) : DocNode :=
  DocNode.mk (some "paragraph".toList) none none (some (rs.map MarkRun.toNode))

/-- A document made of paragraphs of marked runs. -/
def docOfParas (ps : List (List MarkRun)) : RemirrorJSON :=
  ⟨some (ps.map paraNodeOf)⟩

/-- The observable (id, labelType, text) triple of a highlight. -/
def tripleOfH (h : Highlight) : Str × Str × Str := (h.id, h.labelType, h.text)

/-- The triple extraction records for a run, against a fixed registry. -/
def tripleOfRun (reg : Registry) (r : MarkRun) : Str × Str × Str :=
  (MarkRun.idOf r, resolveLabelType r.attrs reg (MarkRun.idOf r), r.text)

/-- A per-entry key update does not change lookups of a different key. -/
theorem find?_map_update {κ α : Type} [BEq κ] [LawfulBEq κ]
    (m : List (κ × α)) (k k' : κ) (v : α) (h : (k == k') = false) :
    (m.map (fun e => if e.1 == k then (k, v) else e)).find? (fun e => e.1 == k')
      = m.find? (fun e => e.1 == k') := by
  induction m with
  | nil => rfl
  | cons e rest ih =>
    by_cases he : (e.1 == k) = true
    · have hek : e.1 = k := by simpa using he
      have he' : (e.1 == k') = false := by rw [hek]; exact h
      simp only [List.map_cons, if_pos he]
      rw [List.find?_cons_of_neg _ (by simp [h]),
        List.find?_cons_of_neg _ (by simp [he']), ih]
    · simp only [List.map_cons, if_neg he]
      cases hq : (e.1 == k') with
      | true =>
        rw [List.find?_cons_of_pos _ (by simp [hq]),
          List.find?_cons_of_pos _ (by simp [hq])]
      | false =>
        rw [List.find?_cons_of_neg _ (by simp [hq]),
          List.find?_cons_of_neg _ (by simp [hq]), ih]

/-- Updating one registry key leaves every other key's lookup unchanged. -/
theorem assocGet_assocSet_ne {κ α : Type} [BEq κ] [LawfulBEq κ]
    (m : List (κ × α)) (k k' : κ) (v : α) (h : k' ≠ k) :
    assocGet (assocSet m k v) k' = assocGet m k' := by
  have hbeq : (k == k') = false := by
    simp only [beq_eq_false_iff_ne, ne_eq]
    exact fun hk => h hk.symm
  unfold assocSet
  by_cases hany : m.any (fun e => e.1 == k) = true
  · rw [if_pos hany]
    unfold assocGet
    rw [find?_map_update m k k' v hbeq]
  · rw [if_neg hany]
    unfold assocGet
    rw [List.find?_append]
    have hlast : ([(k, v)].find? (fun e => e.1 == k')) = none := by
      simp [List.find?, hbeq]
    rw [hlast]
    cases m.find? (fun e => e.1 == k') <;> rfl

/-- Registry form of `assocGet_assocSet_ne`. -/
theorem getHighlight_setHighlight_ne (reg : Registry) (k v k' : Str)
    (h : k' ≠ k) :
    getHighlight (setHighlight reg k v) k' = getHighlight reg k' :=
  assocGet_assocSet_ne reg k k' v h

/-- Label-type resolution only reads the registry at the mark's own id. -/
theorem resolveLabelType_congr (attrs : MarkAttrs) (reg reg' : Registry)
    (id : Str) (h : getHighlight reg' id = getHighlight reg id) :
    resolveLabelType attrs reg' id = resolveLabelType attrs reg id := by
  unfold resolveLabelType
  rw [h]

/-- Evaluation of the extraction walk on a single marked run whose id is
fresh: the run is recorded with the resolved label type, the id is added to
the seen set, and the registry is updated at that id. -/
theorem processNode_markRun (removed : List Str) (em : List (Str × Highlight))
    (r : MarkRun) (pos : Nat) (st : ExtractState)
    (htext : r.text ≠ [])
    (hid : truthy r.attrs.id = true)
    (hseen : MarkRun.idOf r ∉ st.seenIds)
    (hrem : MarkRun.idOf r ∉ removed) :
    processNode removed em (MarkRun.toNode r) pos st =
      ({ highlights := st.highlights ++
          [{ id := MarkRun.idOf r,
             labelType := resolveLabelType r.attrs st.registry (MarkRun.idOf r),
             text := r.text, startIndex := some pos,
             endIndex := some (pos + r.text.length),
             position := (assocGet em (MarkRun.idOf r)).bind (fun g => g.position) }],
         seenIds := st.seenIds ++ [MarkRun.idOf r],
         registry := setHighlight st.registry (MarkRun.idOf r)
           (resolveLabelType r.attrs st.registry (MarkRun.idOf r)) }, r.text.length) := by
  have hne : r.text.isEmpty = false := by
    cases hx : r.text with
    | nil => exact absurd hx htext
    | cons a l => rfl
  unfold MarkRun.toNode
  rw [processNode]
  rw [if_neg (by simp [hne])]
  simp only [List.foldl]
  unfold processMark
  simp only [NodeMark.attrs, NodeMark.type]
  rw [if_neg (by simp)]
  rw [if_neg (by simp [hid])]
  rw [if_neg (by simpa using hseen)]
  rw [if_neg (by simpa using hrem)]
  rfl

/-- Evaluation of the extraction walk on a list of marked runs with fresh,
distinct ids: at the triple level the runs are recorded in order with label
types resolved against the starting registry; the ids are appended to the
seen set; and registry lookups of ids outside the list are unchanged. -/
theorem processNodes_markRuns (removed : List Str) (em : List (Str × Highlight))
    (rs : List MarkRun) :
    ∀ (pos : Nat) (st : ExtractState),
    (∀ r ∈ rs, r.text ≠ []) →
    (∀ r ∈ rs, truthy r.attrs.id = true) →
    (∀ r ∈ rs, MarkRun.idOf r ∉ st.seenIds) →
    (rs.map MarkRun.idOf).Nodup →
    (∀ r ∈ rs, MarkRun.idOf r ∉ removed) →
    ((processNodes removed em (rs.map MarkRun.toNode) pos st).1.highlights.map tripleOfH
        = st.highlights.map tripleOfH ++ rs.map (tripleOfRun st.registry)) ∧
    ((processNodes removed em (rs.map MarkRun.toNode) pos st).1.seenIds
        = st.seenIds ++ rs.map MarkRun.idOf) ∧
    (∀ k, k ∉ rs.map MarkRun.idOf →
      getHighlight (processNodes removed em (rs.map MarkRun.toNode) pos st).1.registry k
        = getHighlight st.registry k) := by
  induction rs with
  | nil =>
    intro pos st _ _ _ _ _
    rw [List.map_nil, processNodes]
    exact ⟨by simp, by simp, fun k _ => rfl⟩
  | cons r rest ih =>
    intro pos st htext hid hseen hnodup hrem
    have hstep := processNode_markRun removed em r pos st
      (htext r (List.mem_cons_self r rest)) (hid r (List.mem_cons_self r rest))
      (hseen r (List.mem_cons_self r rest)) (hrem r (List.mem_cons_self r rest))
    have hfresh : MarkRun.idOf r ∉ rest.map MarkRun.idOf :=
      (List.nodup_cons.mp hnodup).1
    rw [List.map_cons, processNodes, hstep]
    set st1 : ExtractState :=
      { highlights := st.highlights ++
          [{ id := MarkRun.idOf r,
             labelType := resolveLabelType r.attrs st.registry (MarkRun.idOf r),
             text := r.text, startIndex := some pos,
             endIndex := some (pos + r.text.length),
             position := (assocGet em (MarkRun.idOf r)).bind (fun g => g.position) }],
        seenIds := st.seenIds ++ [MarkRun.idOf r],
        registry := setHighlight st.registry (MarkRun.idOf r)
          (resolveLabelType r.attrs st.registry (MarkRun.idOf r)) } with hst1
    have hreg1 : ∀ k, k ≠ MarkRun.idOf r →
        getHighlight st1.registry k = getHighlight st.registry k := by
      intro k hk
      rw [hst1]
      exact getHighlight_setHighlight_ne _ _ _ _ hk
    have ihr := ih (pos + r.text.length) st1
      (fun g hg => htext g (List.mem_cons_of_mem r hg))
      (fun g hg => hid g (List.mem_cons_of_mem r hg))
      (by
        intro g hg
        rw [hst1]
        simp only [List.mem_append, List.mem_singleton]
        rintro (hmem | heq)
        · exact hseen g (List.mem_cons_of_mem r hg) hmem
        · exact hfresh (heq ▸ List.mem_map_of_mem MarkRun.idOf hg))
      (List.nodup_cons.mp hnodup).2
      (fun g hg => hrem g (List.mem_cons_of_mem r hg))
    refine ⟨?_, ?_, ?_⟩
    · rw [ihr.1]
      have hcongr : rest.map (tripleOfRun st1.registry)
          = rest.map (tripleOfRun st.registry) := by
        apply List.map_congr_left
        intro g hg
        unfold tripleOfRun
        rw [resolveLabelType_congr g.attrs st.registry st1.registry (MarkRun.idOf g)
          (hreg1 (MarkRun.idOf g)
            (fun heq => hfresh (heq ▸ List.mem_map_of_mem MarkRun.idOf hg)))]
      rw [hcongr, hst1]
      simp [tripleOfH, tripleOfRun]
    · rw [ihr.2.1, hst1]
      simp
    · intro k hk
      simp only [List.map_cons, List.mem_cons] at hk
      push_neg at hk
      rw [ihr.2.2 k hk.2]
      exact hreg1 k hk.1

/-- The extraction walk on a paragraph of marked runs defers to the walk of
its children (and adds the paragraph newline to the returned length). -/
theorem processNode_paraNodeOf (removed : List Str) (em : List (Str × Highlight))
    (rs : List MarkRun) (pos : Nat) (st : ExtractState) :
    processNode removed em (paraNodeOf rs) pos st =
      ((processNodes removed em (rs.map MarkRun.toNode) pos st).1,
        (processNodes removed em (rs.map MarkRun.toNode) pos st).2 + 1) := by
  unfold paraNodeOf
  rw [processNode, processNodeContent]
  simp

/-- Evaluation of the top-level extraction fold over paragraphs of marked
runs with fresh, distinct ids (triple level, with seen-set and registry
tracking). -/
theorem foldParas_markRuns (removed : List Str) (em : List (Str × Highlight))
    (ps : List (List MarkRun)) :
    ∀ (st : ExtractState),
    (∀ rs ∈ ps, ∀ r ∈ rs, r.text ≠ []) →
    (∀ rs ∈ ps, ∀ r ∈ rs, truthy r.attrs.id = true) →
    (∀ rs ∈ ps, ∀ r ∈ rs, MarkRun.idOf r ∉ st.seenIds) →
    (ps.flatten.map MarkRun.idOf).Nodup →
    (∀ rs ∈ ps, ∀ r ∈ rs, MarkRun.idOf r ∉ removed) →
    (((ps.map paraNodeOf).foldl
          (fun st n => (processNode removed em n 0 st).1) st).highlights.map tripleOfH
        = st.highlights.map tripleOfH ++ ps.flatten.map (tripleOfRun st.registry)) ∧
    (((ps.map paraNodeOf).foldl
          (fun st n => (processNode removed em n 0 st).1) st).seenIds
        = st.seenIds ++ ps.flatten.map MarkRun.idOf) ∧
    (∀ k, k ∉ ps.flatten.map MarkRun.idOf →
      getHighlight ((ps.map paraNodeOf).foldl
          (fun st n => (processNode removed em n 0 st).1) st).registry k
        = getHighlight st.registry k) := by
  induction ps with
  | nil =>
    intro st _ _ _ _ _
    exact ⟨by simp, by simp, fun k _ => rfl⟩
  | cons rs rest ih =>
    intro st htext hid hseen hnodup hrem
    have hself := fun {γ : List MarkRun} (h : γ = rs) => h
    have hnodup' := hnodup
    rw [List.flatten_cons, List.map_append, List.nodup_append] at hnodup'
    obtain ⟨hnodupRs, hnodupRest, hdisj⟩ := hnodup'
    have hpara := processNodes_markRuns removed em rs 0 st
      (htext rs (List.mem_cons_self rs rest))
      (hid rs (List.mem_cons_self rs rest))
      (hseen rs (List.mem_cons_self rs rest))
      hnodupRs
      (hrem rs (List.mem_cons_self rs rest))
    rw [List.map_cons, List.foldl_cons, processNode_paraNodeOf]
    set st1 := (processNodes removed em (rs.map MarkRun.toNode) 0 st).1 with hst1
    have hreg1 : ∀ k, k ∉ rs.map MarkRun.idOf →
        getHighlight st1.registry k = getHighlight st.registry k := hpara.2.2
    have ihr := ih st1
      (fun g hg => htext g (List.mem_cons_of_mem rs hg))
      (fun g hg => hid g (List.mem_cons_of_mem rs hg))
      (by
        intro g hg r hr
        rw [hpara.2.1]
        simp only [List.mem_append]
        rintro (hmem | hmem)
        · exact hseen g (List.mem_cons_of_mem rs hg) r hr hmem
        · exact hdisj hmem
            (by
              apply List.mem_map_of_mem
              rw [List.mem_flatten]
              exact ⟨g, hg, hr⟩))
      hnodupRest
      (fun g hg => hrem g (List.mem_cons_of_mem rs hg))
    refine ⟨?_, ?_, ?_⟩
    · rw [ihr.1, hpara.1]
      have hcongr : rest.flatten.map (tripleOfRun st1.registry)
          = rest.flatten.map (tripleOfRun st.registry) := by
        apply List.map_congr_left
        intro g hg
        unfold tripleOfRun
        rw [resolveLabelType_congr g.attrs st.registry st1.registry (MarkRun.idOf g)
          (hreg1 (MarkRun.idOf g)
            (fun hin => hdisj hin (List.mem_map_of_mem MarkRun.idOf hg)))]
      rw [hcongr]
      simp
    · rw [ihr.2.1, hpara.2.1]
      simp
    · intro k hk
      rw [List.flatten_cons, List.map_append, List.mem_append] at hk
      push_neg at hk
      rw [ihr.2.2 k hk.2]
      exact hreg1 k hk.1

/-- The observable triples extracted from a marked-run document: one record
per run, in document reading order, with the label type resolved against the
starting registry. -/
theorem extract_docOfParas (ps : List (List MarkRun)) (prior : List Highlight)
    (removed : List Str) (reg : Registry)
    (htext : ∀ rs ∈ ps, ∀ r ∈ rs, r.text ≠ [])
    (hid : ∀ rs ∈ ps, ∀ r ∈ rs, truthy r.attrs.id = true)
    (hnodup : (ps.flatten.map MarkRun.idOf).Nodup)
    (hrem : ∀ rs ∈ ps, ∀ r ∈ rs, MarkRun.idOf r ∉ removed) :
    ((extractHighlightsFromContentMarks (docOfParas ps) prior removed reg).1).map tripleOfH
      = ps.flatten.map (tripleOfRun reg) := by
  have hfold := foldParas_markRuns removed (mkExistingMap prior) ps
    ⟨[], [], reg⟩ htext hid (fun _ _ _ _ => List.not_mem_nil _) hnodup hrem
  unfold extractHighlightsFromContentMarks docOfParas
  simpa using hfold.1

/-! ### C8: label-type resolution priority during extraction -/

/-- C8: during extraction of a document of non-empty marked runs with truthy
distinct ids (so every mark is the first occurrence of its id), each
recorded annotation's type is `resolveLabelType` of the mark's attributes
against the registry at the start of the pass; and that resolution obeys the
strict priority — the mark's own truthy `labelType` attribute first, else
its truthy `type` attribute, else a non-empty registry entry for the id,
else the default type `claim`. -/
theorem extraction_resolves_type_by_priority (rs : List MarkRun)
    (prior : List Highlight) (reg : Registry)
    (htext : ∀ r ∈ rs, r.text ≠ [])
    (hid : ∀ r ∈ rs, truthy r.attrs.id = true)
    (hnodup : (rs.map MarkRun.idOf).Nodup) :
    (((extractHighlightsFromContentMarks (docOfParas [rs]) prior [] reg).1).map tripleOfH
      = rs.map (tripleOfRun reg)) ∧
    (∀ attrs id, truthy attrs.labelType = true →
      resolveLabelType attrs reg id = attrs.labelType.getD []) ∧
    (∀ attrs id, truthy attrs.labelType = false → truthy attrs.type = true →
      resolveLabelType attrs reg id = attrs.type.getD []) ∧
    (∀ attrs id savedType, truthy attrs.labelType = false →
      truthy attrs.type = false → getHighlight reg id = some savedType →
      savedType ≠ [] → resolveLabelType attrs reg id = savedType) ∧
    (∀ attrs id, truthy attrs.labelType = false → truthy attrs.type = false →
      (getHighlight reg id = none ∨ getHighlight reg id = some []) →
      resolveLabelType attrs reg id = "claim".toList) := by
  refine ⟨?_, ?_, ?_, ?_, ?_⟩
  · have h := extract_docOfParas [rs] prior [] reg
      (by intro g hg r hr; rw [List.mem_singleton.mp hg] at hr; exact htext r hr)
      (by intro g hg r hr; rw [List.mem_singleton.mp hg] at hr; exact hid r hr)
      (by simpa using hnodup)
      (by intro g _ r _; exact List.not_mem_nil _)
    simpa using h
  · intro attrs id hlt
    unfold resolveLabelType
    rw [if_pos hlt]
  · intro attrs id hlt hty
    unfold resolveLabelType
    rw [if_neg (by simp [hlt]), if_pos hty]
  · intro attrs id savedType hlt hty hgot hne
    unfold resolveLabelType
    rw [if_neg (by simp [hlt]), if_neg (by simp [hty]), hgot]
    simp only
    rw [if_neg (by simpa using hne)]
  · intro attrs id hlt hty hgot
    unfold resolveLabelType
    rw [if_neg (by simp [hlt]), if_neg (by simp [hty])]
    rcases hgot with hgot | hgot <;> simp [hgot]

/-- A run whose mark carries a labelType attribute (which wins). -/
def runLT : MarkRun :=
  ⟨⟨some "a1".toList, some "evidence".toList, some "cause".toList⟩, "t1".toList⟩

/-- A run whose mark carries only a type attribute (which wins next). -/
def runTY : MarkRun :=
  ⟨⟨some "a2".toList, none, some "cause".toList⟩, "t2".toList⟩

/-- A run whose mark carries neither attribute but has a registry entry. -/
def runRG : MarkRun :=
  ⟨⟨some "a3".toList, none, none⟩, "t3".toList⟩

/-- A run whose mark carries neither attribute and has no registry entry. -/
def runDF : MarkRun :=
  ⟨⟨some "a4".toList, none, none⟩, "t4".toList⟩

/-- The registry of the C8 witness: an entry for `a3` only. -/
def regC8 : Registry := [("a3".toList, "question".toList)]

/-- C8 witness: the priority theorem applied to one paragraph holding the
four priority situations, with the resolved triples evaluated. -/
theorem extraction_resolves_type_witness :
    (((extractHighlightsFromContentMarks
          (docOfParas [[runLT, runTY, runRG, runDF]]) [] [] regC8).1).map tripleOfH
      = [runLT, runTY, runRG, runDF].map (tripleOfRun regC8)) ∧
    [runLT, runTY, runRG, runDF].map (tripleOfRun regC8) =
      [("a1".toList, "evidence".toList, "t1".toList),
       ("a2".toList, "cause".toList, "t2".toList),
       ("a3".toList, "question".toList, "t3".toList),
       ("a4".toList, "claim".toList, "t4".toList)] :=
  ⟨(extraction_resolves_type_by_priority [runLT, runTY, runRG, runDF] [] regC8
      (by decide) (by decide) (by decide)).1, by decide⟩

/-! ### C2: round-trip of extraction and injection

Infrastructure: the plain text of a document, and the evaluation of
`createDocumentWithMarks` on paragraphs of marked runs.
-/

/-- The concatenated plain text of a document: every run text in reading
order. -/
def plainTextOfDoc (doc : RemirrorJSON) : Str :=
  ((doc.content.getD []).map (fun p => paragraphTextOf p.content)).flatten

/-- The concatenated text of a list of runs. -/
def runsText (rs : List MarkRun) : Str := (rs.map MarkRun.text).flatten

/-- The label type a run's mark exposes to the injection pass
(`attrs.labelType || attrs.type || ""`). -/
def markLabelOf (r : MarkRun) : Str :=
  if truthy r.attrs.labelType then r.attrs.labelType.getD []
  else if truthy r.attrs.type then r.attrs.type.getD []
  else []

/-- The `existingHighlights` ranges the injection pass collects from a
paragraph of marked runs starting at a given offset. -/
def mkInjs : List MarkRun → Nat → List InjHL
  | [], _ => []
  | r :: rest, pos =>
    { id := MarkRun.idOf r, labelType := markLabelOf r, text := r.text,
      originalText := some r.text, startIndex := (pos : Int),
      endIndex := (pos : Int) + (r.text.length : Int) } ::
      mkInjs rest (pos + r.text.length)

/-- The (id, text) pair of a highlight. -/
def pairOfH (h : Highlight) : Str × Str := (h.id, h.text)

/-- The (id, text) pair of a run. -/
def pairOfRun (r : MarkRun) : Str × Str := (MarkRun.idOf r, r.text)

/-- Whether a run of the list carries the given id. -/
def hasIdIn (rs : List MarkRun) (id : Str) : Bool :=
  rs.any (fun r => r.attrs.id == some id)

/-- The paragraph text of a paragraph of marked runs is the concatenation of
the run texts. -/
theorem paragraphTextOf_markRuns (rs : List MarkRun) :
    paragraphTextOf (some (rs.map MarkRun.toNode)) = runsText rs := by
  show ((rs.map MarkRun.toNode).map (fun n => n.text.getD [])).flatten = _
  rw [List.map_map]
  rfl

/-- The plain text of a marked-run document is the concatenation of all run
texts. -/
theorem plainTextOfDoc_docOfParas (ps : List (List MarkRun)) :
    plainTextOfDoc (docOfParas ps) = (ps.map runsText).flatten := by
  unfold plainTextOfDoc docOfParas
  simp only [RemirrorJSON.content, Option.getD, List.map_map]
  congr 1
  apply List.map_congr_left
  intro rs _
  exact paragraphTextOf_markRuns rs

/-- The first-pass mark scan over marked runs reduces to an id scan over the
runs. -/
theorem hasMarkWithId_markRuns (rs : List MarkRun) (id : Str) :
    hasMarkWithId (rs.map MarkRun.toNode) id = hasIdIn rs id := by
  unfold hasMarkWithId hasIdIn
  induction rs with
  | nil => rfl
  | cons r rest ih =>
    simp only [List.map_cons, List.any_cons]
    rw [← ih]
    congr 1
    simp [MarkRun.toNode, DocNode.marks, NodeMark.attrs]

/-- `assocGet` into an association list with distinct keys finds exactly the
member entries. -/
theorem assocGet_eq_some_iff {κ α : Type} [BEq κ] [LawfulBEq κ]
    (m : List (κ × α)) (hnd : (m.map Prod.fst).Nodup) (k : κ) (v : α) :
    assocGet m k = some v ↔ (k, v) ∈ m := by
  induction m with
  | nil => simp [assocGet]
  | cons e rest ih =>
    rw [List.map_cons, List.nodup_cons] at hnd
    by_cases he : (e.1 == k) = true
    · have hek : e.1 = k := by simpa using he
      unfold assocGet
      rw [@List.find?_cons_of_pos _ (fun x => x.1 == k) e rest he]
      show some e.2 = some v ↔ (k, v) ∈ e :: rest
      constructor
      · intro hv
        injection hv with hv
        apply List.mem_cons.mpr
        left
        rw [← hv, ← hek]
      · intro hmem
        rcases List.mem_cons.mp hmem with heq | hmem
        · rw [← heq]
        · exact absurd (by simpa using List.mem_map_of_mem Prod.fst hmem)
            (hek ▸ hnd.1)
    · unfold assocGet
      rw [@List.find?_cons_of_neg _ (fun x => x.1 == k) e rest he]
      rw [show ((rest.find? fun e => e.1 == k).map (fun e => e.2)) = assocGet rest k from rfl]
      rw [ih hnd.2]
      constructor
      · exact fun h => List.mem_cons_of_mem e h
      · intro hmem
        rcases List.mem_cons.mp hmem with heq | hmem
        · exfalso
          apply he
          rw [← heq]
          simp
        · exact hmem

/-- `assocGet` misses exactly the absent keys. -/
theorem assocGet_eq_none_iff {κ α : Type} [BEq κ] [LawfulBEq κ]
    (m : List (κ × α)) (k : κ) :
    assocGet m k = none ↔ ∀ e ∈ m, e.1 ≠ k := by
  unfold assocGet
  rw [Option.map_eq_none', List.find?_eq_none]
  constructor
  · intro h e hmem
    have h2 := h e hmem
    intro heq
    rw [heq] at h2
    simp at h2
  · intro h e hmem
    have h2 := h e hmem
    simp [h2]

/-- A filterMap by a guarded constructor is a map over a filter. -/
theorem filterMap_guard {α β : Type} (P : α → Bool) (g : α → β) (l : List α) :
    l.filterMap (fun x => if P x then some (g x) else none)
      = (l.filter P).map g := by
  induction l with
  | nil => rfl
  | cons x xs ih =>
    by_cases h : P x = true
    · simp [List.filterMap_cons, List.filter_cons, h, ih]
    · simp [List.filterMap_cons, List.filter_cons, h, ih]

/-- The paragraph-assignment list is a map over the filtered enumeration. -/
theorem annotationsByParagraph_eq (paras : List DocNode) (anns : List Highlight) :
    annotationsByParagraph paras anns =
      (paras.enum.filter (fun e =>
          (e.2.type == some "paragraph".toList) &&
            !(annotationsFor e.2 anns).isEmpty)).map
        (fun e => (e.1, annotationsFor e.2 anns)) := by
  unfold annotationsByParagraph
  rw [← filterMap_guard]
  apply List.filterMap_congr
  intro e _
  cases hb : (e.2.type == some "paragraph".toList) with
  | false => simp [hb]
  | true =>
    cases hb2 : (annotationsFor e.2 anns).isEmpty with
    | false => simp [hb, hb2]
    | true => simp [hb, hb2]

/-- With globally distinct ids, runs of different paragraphs carry different
ids. -/
theorem nodup_flatten_cross (ps : List (List MarkRun))
    (hnd : (ps.flatten.map MarkRun.idOf).Nodup) :
    ∀ (i j : Nat) (rsi rsj : List MarkRun),
      ps[i]? = some rsi → ps[j]? = some rsj → i ≠ j →
      ∀ r ∈ rsi, ∀ r' ∈ rsj, MarkRun.idOf r ≠ MarkRun.idOf r' := by
  induction ps with
  | nil =>
    intro i j rsi rsj hi
    simp at hi
  | cons head tail ih =>
    rw [List.flatten_cons, List.map_append] at hnd
    obtain ⟨hnd1, hnd2, hdisj⟩ := List.nodup_append.mp hnd
    intro i j rsi rsj hi hj hij r hr r' hr'
    match i, j with
    | 0, 0 => exact absurd rfl hij
    | 0, Nat.succ j =>
      rw [List.getElem?_cons_zero] at hi
      injection hi with hi
      subst hi
      rw [List.getElem?_cons_succ] at hj
      intro heq
      have hmem' : MarkRun.idOf r' ∈ tail.flatten.map MarkRun.idOf := by
        apply List.mem_map_of_mem
        rw [List.mem_flatten]
        exact ⟨rsj, by
          have := List.getElem?_mem hj
          exact this, hr'⟩
      exact hdisj (List.mem_map_of_mem MarkRun.idOf hr) (heq ▸ hmem')
    | Nat.succ i, 0 =>
      rw [List.getElem?_cons_zero] at hj
      injection hj with hj
      subst hj
      rw [List.getElem?_cons_succ] at hi
      intro heq
      have hmem : MarkRun.idOf r ∈ tail.flatten.map MarkRun.idOf := by
        apply List.mem_map_of_mem
        rw [List.mem_flatten]
        exact ⟨rsi, List.getElem?_mem hi, hr⟩
      exact hdisj (List.mem_map_of_mem MarkRun.idOf hr') (heq ▸ hmem) |>.elim
    | Nat.succ i, Nat.succ j =>
      rw [List.getElem?_cons_succ] at hi hj
      exact ih hnd2 i j rsi rsj hi hj (by omega) r hr r' hr'

/-- Paragraph-local ids are distinct when the flattened ids are. -/
theorem nodup_flatten_block (ps : List (List MarkRun))
    (hnd : (ps.flatten.map MarkRun.idOf).Nodup) :
    ∀ rs ∈ ps, (rs.map MarkRun.idOf).Nodup := by
  intro rs hmem
  have hsub : List.Sublist rs ps.flatten := List.sublist_flatten_of_mem hmem
  exact hnd.sublist (hsub.map MarkRun.idOf)

/-- Filtering a flattened list whose blocks are all-in or all-out keeps
exactly the one accepted block. -/
theorem flatten_filter_block {α : Type} (pred : α → Bool) (ps : List (List α)) :
    ∀ (j : Nat) (rsj : List α), ps[j]? = some rsj →
    (∀ r ∈ rsj, pred r = true) →
    (∀ i rsi, ps[i]? = some rsi → i ≠ j → ∀ r ∈ rsi, pred r = false) →
    ps.flatten.filter pred = rsj := by
  induction ps with
  | nil =>
    intro j rsj hj
    simp at hj
  | cons head tail ih =>
    intro j rsj hj hin hout
    match j with
    | 0 =>
      rw [List.getElem?_cons_zero] at hj
      injection hj with hj
      subst hj
      rw [List.flatten_cons, List.filter_append, List.filter_eq_self.mpr hin]
      have htail : tail.flatten.filter pred = [] := by
        rw [List.filter_eq_nil_iff]
        intro a ha
        rw [List.mem_flatten] at ha
        obtain ⟨l, hl, hal⟩ := ha
        obtain ⟨i, hi⟩ := List.mem_iff_getElem?.mp hl
        have := hout (i + 1) l (by rw [List.getElem?_cons_succ]; exact hi)
          (by omega) a hal
        simp [this]
      rw [htail, List.append_nil]
    | Nat.succ j =>
      rw [List.getElem?_cons_succ] at hj
      rw [List.flatten_cons, List.filter_append]
      have hhead : head.filter pred = [] := by
        rw [List.filter_eq_nil_iff]
        intro a ha
        have := hout 0 head (by rw [List.getElem?_cons_zero]) (by omega) a ha
        simp [this]
      rw [hhead, List.nil_append]
      exact ih j rsj hj hin (fun i rsi hi hij =>
        hout (i + 1) rsi (by rw [List.getElem?_cons_succ]; exact hi) (by omega))

/-- A filter whose predicate factors through a common projection transfers
along an equality of projected lists. -/
theorem filter_map_transfer {α β γ : Type} (f : α → γ) (g : β → γ) (q : γ → Bool)
    (xs : List α) :
    ∀ (ys : List β), xs.map f = ys.map g →
    (xs.filter (fun x => q (f x))).map f = (ys.filter (fun y => q (g y))).map g := by
  induction xs with
  | nil =>
    intro ys h
    cases ys with
    | nil => rfl
    | cons y ys => simp at h
  | cons x xs ih =>
    intro ys h
    cases ys with
    | nil => simp at h
    | cons y ys =>
      rw [List.map_cons, List.map_cons] at h
      injection h with h1 h2
      have hqy : q (g y) = q (f x) := by rw [h1]
      by_cases hq : q (f x) = true
      · have hqy' : q (g y) = true := by rw [hqy, hq]
        rw [List.filter_cons, List.filter_cons, if_pos hq, if_pos hqy',
          List.map_cons, List.map_cons, h1, ih ys h2]
      · have hqy' : ¬(q (g y) = true) := by rw [hqy]; exact hq
        rw [List.filter_cons, List.filter_cons, if_neg hq, if_neg hqy', ih ys h2]

/-- The ids of the collected ranges are the run ids. -/
theorem mkInjs_map_id (rs : List MarkRun) :
    ∀ pos, (mkInjs rs pos).map InjHL.id = rs.map MarkRun.idOf := by
  induction rs with
  | nil => intro pos; rfl
  | cons r rest ih =>
    intro pos
    rw [show mkInjs (r :: rest) pos =
      { id := MarkRun.idOf r, labelType := markLabelOf r, text := r.text,
        originalText := some r.text, startIndex := (pos : Int),
        endIndex := (pos : Int) + (r.text.length : Int) } ::
        mkInjs rest (pos + r.text.length) from rfl]
    rw [List.map_cons, List.map_cons, ih]

/-- Every run yields a collected range with its id and text. -/
theorem mkInjs_mem_of_run (rs : List MarkRun) :
    ∀ pos, ∀ r ∈ rs, ∃ h ∈ mkInjs rs pos,
      h.id = MarkRun.idOf r ∧ h.text = r.text := by
  induction rs with
  | nil => intro pos r hr; simp at hr
  | cons g rest ih =>
    intro pos r hr
    rcases List.mem_cons.mp hr with rfl | hr
    · exact ⟨_, List.mem_cons_self _ _, rfl, rfl⟩
    · obtain ⟨h, hmem, hh⟩ := ih (pos + g.text.length) r hr
      exact ⟨h, List.mem_cons_of_mem _ hmem, hh⟩

/-- All collected ranges start at or after the paragraph offset. -/
theorem mkInjs_lb (rs : List MarkRun) :
    ∀ pos, ∀ h ∈ mkInjs rs pos, (pos : Int) ≤ h.startIndex := by
  induction rs with
  | nil => intro pos h hmem; simp [mkInjs] at hmem
  | cons r rest ih =>
    intro pos h hmem
    rcases List.mem_cons.mp hmem with rfl | hmem
    · simp
    · have := ih (pos + r.text.length) h hmem
      omega

/-- The collected ranges are sorted by start offset. -/
theorem mkInjs_sorted (rs : List MarkRun) :
    ∀ pos, (mkInjs rs pos).Pairwise
      (fun a b => a.startIndex ≤ b.startIndex) := by
  induction rs with
  | nil => intro pos; exact List.Pairwise.nil
  | cons r rest ih =>
    intro pos
    refine List.pairwise_cons.mpr ⟨?_, ih (pos + r.text.length)⟩
    intro h hmem
    have := mkInjs_lb rest (pos + r.text.length) h hmem
    show (pos : Int) ≤ h.startIndex
    omega

/-- One collection step on a marked-run node with non-empty id and label. -/
theorem collectStep_markRun (acc : List InjHL) (pos : Nat) (r : MarkRun)
    (hid : truthy r.attrs.id = true)
    (hlab : truthy r.attrs.labelType = true)
    (htext : r.text ≠ []) :
    collectStep (acc, pos) (MarkRun.toNode r) =
      (acc ++ [{ id := MarkRun.idOf r, labelType := markLabelOf r,
                 text := r.text, originalText := some r.text,
                 startIndex := (pos : Int),
                 endIndex := (pos : Int) + (r.text.length : Int) }],
        pos + r.text.length) := by
  have hne : r.text.isEmpty = false := by
    cases hx : r.text with
    | nil => exact absurd hx htext
    | cons a l => rfl
  have hidne : (r.attrs.id.getD []).isEmpty = false := by
    cases hx : r.attrs.id with
    | none => rw [hx] at hid; simp [truthy] at hid
    | some s =>
      rw [hx] at hid
      simp only [truthy] at hid
      simp only [hx, Option.getD]
      cases s with
      | nil => simp at hid
      | cons a l => rfl
  have hlabne : (if truthy r.attrs.labelType then r.attrs.labelType.getD []
      else if truthy r.attrs.type then r.attrs.type.getD [] else []).isEmpty = false := by
    rw [if_pos hlab]
    cases hx : r.attrs.labelType with
    | none => rw [hx] at hlab; simp [truthy] at hlab
    | some s =>
      rw [hx] at hlab
      simp only [truthy] at hlab
      simp only [Option.getD]
      cases s with
      | nil => simp at hlab
      | cons a l => rfl
  unfold collectStep MarkRun.toNode
  simp only [DocNode.marks, DocNode.text, NodeMark.attrs, NodeMark.type]
  rw [if_neg (by simp [hne])]
  simp only [List.filterMap]
  rw [if_neg (by simp), if_pos (by simp [hidne, hlabne])]
  unfold MarkRun.idOf markLabelOf
  rw [if_pos hlab]
  rfl

/-- The collection fold over marked runs appends exactly the `mkInjs`
ranges. -/
theorem collect_fold_markRuns (rs : List MarkRun)
    (hid : ∀ r ∈ rs, truthy r.attrs.id = true)
    (hlab : ∀ r ∈ rs, truthy r.attrs.labelType = true)
    (htext : ∀ r ∈ rs, r.text ≠ []) :
    ∀ (acc : List InjHL) (pos : Nat),
      (rs.map MarkRun.toNode).foldl collectStep (acc, pos)
        = (acc ++ mkInjs rs pos, pos + (runsText rs).length) := by
  induction rs with
  | nil =>
    intro acc pos
    simp [mkInjs, runsText]
  | cons r rest ih =>
    intro acc pos
    rw [List.map_cons, List.foldl_cons,
      collectStep_markRun acc pos r (hid r (List.mem_cons_self r rest))
        (hlab r (List.mem_cons_self r rest)) (htext r (List.mem_cons_self r rest)),
      ih (fun g hg => hid g (List.mem_cons_of_mem r hg))
        (fun g hg => hlab g (List.mem_cons_of_mem r hg))
        (fun g hg => htext g (List.mem_cons_of_mem r hg))]
    rw [show mkInjs (r :: rest) pos =
      { id := MarkRun.idOf r, labelType := markLabelOf r, text := r.text,
        originalText := some r.text, startIndex := (pos : Int),
        endIndex := (pos : Int) + (r.text.length : Int) } ::
        mkInjs rest (pos + r.text.length) from rfl]
    simp only [Prod.mk.injEq]
    constructor
    · simp
    · simp only [runsText, List.map_cons, List.flatten_cons, List.length_append]
      omega

/-- On a paragraph of marked runs, the collected ranges are exactly
`mkInjs`. -/
theorem collectExisting_markRuns (rs : List MarkRun)
    (hid : ∀ r ∈ rs, truthy r.attrs.id = true)
    (hlab : ∀ r ∈ rs, truthy r.attrs.labelType = true)
    (htext : ∀ r ∈ rs, r.text ≠ []) :
    collectExisting (rs.map MarkRun.toNode) = mkInjs rs 0 := by
  unfold collectExisting
  rw [collect_fold_markRuns rs hid hlab htext [] 0]
  rfl

/-- The first-pass assignment for the paragraph at index `j` consists
(at the id/text level) of exactly that paragraph's runs, in order. -/
theorem annotationsFor_block (ps : List (List MarkRun)) (anns : List Highlight)
    (j : Nat) (rsj : List MarkRun) (hj : ps[j]? = some rsj)
    (hpair : anns.map pairOfH = ps.flatten.map pairOfRun)
    (hid : ∀ rs ∈ ps, ∀ r ∈ rs, truthy r.attrs.id = true)
    (htext : ∀ rs ∈ ps, ∀ r ∈ rs, r.text ≠ [])
    (hnd : (ps.flatten.map MarkRun.idOf).Nodup)
    (halias : ∀ (i j : Nat) (rsi rsj : List MarkRun),
      ps[i]? = some rsi → ps[j]? = some rsj → i ≠ j →
      ∀ r ∈ rsi, jsIncludes (runsText rsj) r.text = false) :
    (annotationsFor (paraNodeOf rsj) anns).map pairOfH = rsj.map pairOfRun := by
  have hjmem : rsj ∈ ps := List.getElem?_mem hj
  have hq : annotationsFor (paraNodeOf rsj) anns =
      anns.filter (fun a =>
        !(pairOfH a).2.isEmpty &&
          (jsIncludes (runsText rsj) (pairOfH a).2 || hasIdIn rsj (pairOfH a).1)) := by
    unfold annotationsFor
    apply List.filter_congr
    intro a _
    rw [show (paraNodeOf rsj).content = some (rsj.map MarkRun.toNode) from rfl]
    rw [paragraphTextOf_markRuns]
    rw [show (some (rsj.map MarkRun.toNode)).getD [] = rsj.map MarkRun.toNode from rfl]
    rw [hasMarkWithId_markRuns]
    rfl
  rw [hq]
  have htrans := filter_map_transfer pairOfH pairOfRun
    (fun pr => !pr.2.isEmpty && (jsIncludes (runsText rsj) pr.2 || hasIdIn rsj pr.1))
    anns ps.flatten hpair
  rw [htrans]
  have hfil : ps.flatten.filter (fun r =>
      !(pairOfRun r).2.isEmpty &&
        (jsIncludes (runsText rsj) (pairOfRun r).2 || hasIdIn rsj (pairOfRun r).1))
      = rsj := by
    apply flatten_filter_block _ ps j rsj hj
    · intro r hr
      have hne : r.text.isEmpty = false := by
        cases hx : r.text with
        | nil => exact absurd hx (htext rsj hjmem r hr)
        | cons a l => rfl
      have hidin : hasIdIn rsj (MarkRun.idOf r) = true := by
        unfold hasIdIn
        rw [List.any_eq_true]
        refine ⟨r, hr, ?_⟩
        have := hid rsj hjmem r hr
        cases hx : r.attrs.id with
        | none => rw [hx] at this; simp [truthy] at this
        | some s =>
          unfold MarkRun.idOf
          rw [hx]
          simp
      unfold pairOfRun
      simp [hne, hidin]
    · intro i rsi hi hij r hr
      have hrimem : rsi ∈ ps := List.getElem?_mem hi
      have hnin : jsIncludes (runsText rsj) r.text = false :=
        halias i j rsi rsj hi hj hij r hr
      have hidout : hasIdIn rsj (MarkRun.idOf r) = false := by
        unfold hasIdIn
        rw [List.any_eq_false]
        intro r' hr'
        have hne := nodup_flatten_cross ps hnd i j rsi rsj hi hj hij r hr r' hr'
        have hid' := hid rsj hjmem r' hr'
        cases hx : r'.attrs.id with
        | none => simp
        | some s =>
          simp only [hx, beq_iff_eq, Option.some.injEq]
          intro heq
          apply hne
          unfold MarkRun.idOf
          rw [hx, heq]
          rfl
      unfold pairOfRun
      simp [hnin, hidout]
  rw [hfil]

/-- Merging an annotation that already matches a collected range (same id and
same text, under distinct range ids) leaves the range list unchanged. -/
theorem mergeAnnot_noop (ptext : Str) (all : List InjHL) (a : Highlight)
    (hnd : (all.map InjHL.id).Nodup)
    (hex : ∃ g ∈ all, g.id = a.id ∧ g.text = a.text) :
    mergeAnnot ptext all a = all := by
  obtain ⟨g, hgmem, hgid, hgtext⟩ := hex
  cases hfi : all.findIdx? (fun h => h.id == a.id) with
  | none =>
    exfalso
    have hfalse := List.findIdx?_eq_none_iff.mp hfi g hgmem
    rw [hgid] at hfalse
    simp at hfalse
  | some i =>
    obtain ⟨hlt, hp, _⟩ := List.findIdx?_eq_some_iff_getElem.mp hfi
    have hidi : all[i].id = a.id := by simpa using hp
    have heqg : all[i] = g :=
      List.inj_on_of_nodup_map hnd (List.getElem_mem hlt) hgmem
        (by rw [hidi, hgid])
    have htexteq : all[i].text = a.text := by rw [heqg, hgtext]
    unfold mergeAnnot
    simp only [hfi, List.getElem?_eq_getElem hlt]
    simp [htexteq]

/-- The merge fold is the identity when every assigned annotation already
matches a collected range. -/
theorem merge_fold_noop (ptext : Str) (all : List InjHL)
    (hnd : (all.map InjHL.id).Nodup) :
    ∀ (paraAnns : List Highlight),
      (∀ a ∈ paraAnns, ∃ g ∈ all, g.id = a.id ∧ g.text = a.text) →
      paraAnns.foldl (mergeAnnot ptext) all = all := by
  intro paraAnns
  induction paraAnns with
  | nil => intro _; rfl
  | cons a rest ih =>
    intro hall
    rw [List.foldl_cons,
      mergeAnnot_noop ptext all a hnd (hall a (List.mem_cons_self a rest))]
    exact ih (fun b hb => hall b (List.mem_cons_of_mem a hb))

/-- Segments that end at or before a highlight's start are skipped by the
splitting search. -/
theorem splitFirstMatching_skip (h : InjHL) :
    ∀ (done rest : List TextSegment),
      (∀ seg ∈ done, seg.startPos + (seg.text.length : Int) ≤ h.startIndex) →
      splitFirstMatching (done ++ rest) h
        = (splitFirstMatching rest h).map (fun l => done ++ l) := by
  intro done
  induction done with
  | nil =>
    intro rest _
    rw [List.nil_append]
    cases hs : splitFirstMatching rest h with
    | none => rfl
    | some l => simp
  | cons seg dtl ih =>
    intro rest hskip
    have hseg := hskip seg (List.mem_cons_self seg dtl)
    rw [List.cons_append]
    show (if 0 ≤ h.startIndex - seg.startPos ∧
        h.startIndex - seg.startPos < (seg.text.length : Int) then
        some (splitSegment seg h ++ (dtl ++ rest))
      else (splitFirstMatching (dtl ++ rest) h).map (seg :: ·)) = _
    rw [if_neg (by omega)]
    rw [ih rest (fun s hs => hskip s (List.mem_cons_of_mem seg hs))]
    rw [Option.map_map]
    rfl

/-- The run text concatenation unfolds over a head run. -/
theorem runsText_cons (r : MarkRun) (rest : List MarkRun) :
    runsText (r :: rest) = r.text ++ runsText rest := by
  unfold runsText
  rw [List.map_cons, List.flatten_cons]

/-- Applying the head collected range to the pending tail segment marks the
head run's text and leaves the remaining paragraph text as a new tail
segment. -/
theorem applyHighlight_head (anns : List Highlight) (r : MarkRun)
    (rest : List MarkRun) (pos : Nat) (done : List TextSegment)
    (htext : r.text ≠ [])
    (hskip : ∀ seg ∈ done, seg.startPos + (seg.text.length : Int) ≤ (pos : Int)) :
    applyHighlight anns (done ++ [⟨runsText (r :: rest), [], (pos : Int)⟩])
        { id := MarkRun.idOf r, labelType := markLabelOf r, text := r.text,
          originalText := some r.text, startIndex := (pos : Int),
          endIndex := (pos : Int) + (r.text.length : Int) }
      = (done ++ [⟨r.text, [⟨MarkRun.idOf r, markLabelOf r⟩], (pos : Int)⟩])
          ++ (if runsText rest = [] then []
              else [⟨runsText rest, [], ((pos + r.text.length : Nat) : Int)⟩]) := by
  have hlen : 0 < r.text.length := List.length_pos.mpr htext
  have hsplit : splitFirstMatching
      [(⟨runsText (r :: rest), [], (pos : Int)⟩ : TextSegment)]
      { id := MarkRun.idOf r, labelType := markLabelOf r, text := r.text,
        originalText := some r.text, startIndex := (pos : Int),
        endIndex := (pos : Int) + (r.text.length : Int) }
      = some (splitSegment ⟨runsText (r :: rest), [], (pos : Int)⟩
          { id := MarkRun.idOf r, labelType := markLabelOf r, text := r.text,
            originalText := some r.text, startIndex := (pos : Int),
            endIndex := (pos : Int) + (r.text.length : Int) } ++ []) := by
    unfold splitFirstMatching
    rw [if_pos]
    constructor
    · show (0 : Int) ≤ (pos : Int) - (pos : Int)
      omega
    · show (pos : Int) - (pos : Int) < ((runsText (r :: rest)).length : Int)
      rw [runsText_cons, List.length_append]
      push_cast
      omega
  unfold applyHighlight
  rw [splitFirstMatching_skip _ done _ (by intro seg hs; exact hskip seg hs),
    hsplit]
  show done ++ (splitSegment ⟨runsText (r :: rest), [], (pos : Int)⟩
      { id := MarkRun.idOf r, labelType := markLabelOf r, text := r.text,
        originalText := some r.text, startIndex := (pos : Int),
        endIndex := (pos : Int) + (r.text.length : Int) } ++ []) = _
  rw [List.append_nil]
  unfold splitSegment
  simp only [sub_self, add_sub_cancel_left, add_zero, List.nil_append]
  rw [if_neg (show ¬((0 : Int) > 0) by omega)]
  rw [runsText_cons, List.length_append]
  by_cases hre : runsText rest = []
  · rw [hre]
    simp
  · have hrl : 0 < (runsText rest).length := List.length_pos.mpr hre
    have hcond : ((r.text.length : Nat) : Int)
        < ((r.text.length + (runsText rest).length : Nat) : Int) := by
      push_cast
      omega
    rw [if_pos hcond, if_neg hre]
    have hdrop : jsDropFrom (r.text ++ runsText rest) ((r.text.length : Int))
        = runsText rest := by
      unfold jsDropFrom
      rw [Int.toNat_natCast, List.drop_left]
    rw [hdrop, ← Nat.cast_add, ← List.append_assoc, List.nil_append]

/-- The segment-splitting fold over the collected ranges of a run paragraph
turns the pending tail segment into one marked segment per run. -/
theorem applyHighlight_fold (anns : List Highlight) :
    ∀ (rs : List MarkRun) (pos : Nat) (done : List TextSegment),
      rs ≠ [] →
      (∀ r ∈ rs, r.text ≠ []) →
      (∀ seg ∈ done, seg.startPos + (seg.text.length : Int) ≤ (pos : Int)) →
      ((mkInjs rs pos).foldl (applyHighlight anns)
          (done ++ [⟨runsText rs, [], (pos : Int)⟩])).map TextSegment.text
        = done.map TextSegment.text ++ rs.map MarkRun.text := by
  intro rs
  induction rs with
  | nil => intro pos done hne; exact absurd rfl hne
  | cons r rest ih =>
    intro pos done _ htext hskip
    rw [show mkInjs (r :: rest) pos =
      { id := MarkRun.idOf r, labelType := markLabelOf r, text := r.text,
        originalText := some r.text, startIndex := (pos : Int),
        endIndex := (pos : Int) + (r.text.length : Int) } ::
        mkInjs rest (pos + r.text.length) from rfl]
    rw [List.foldl_cons,
      applyHighlight_head anns r rest pos done
        (htext r (List.mem_cons_self r rest)) hskip]
    by_cases hre : runsText rest = []
    · have hrnil : rest = [] := by
        cases hx : rest with
        | nil => rfl
        | cons g tl =>
          exfalso
          rw [hx, runsText_cons] at hre
          exact htext g
            (by rw [hx]; exact List.mem_cons_of_mem r (List.mem_cons_self g tl))
            (List.append_eq_nil.mp hre).1
      subst hrnil
      rw [if_pos hre]
      simp [mkInjs]
    · rw [if_neg hre]
      have hrne : rest ≠ [] := by
        intro hx
        apply hre
        rw [hx]
        rfl
      have hih := ih (pos + r.text.length)
        (done ++ [(⟨r.text, [(⟨MarkRun.idOf r, markLabelOf r⟩ : SegHL)],
          (pos : Int)⟩ : TextSegment)])
        hrne
        (fun g' hg' => htext g' (List.mem_cons_of_mem r hg'))
        (by
          intro seg hs
          rcases List.mem_append.mp hs with hs | hs
          · have := hskip seg hs
            push_cast
            omega
          · rcases List.mem_cons.mp hs with rfl | hs
            · show (pos : Int) + ((r.text.length : Nat) : Int)
                ≤ ((pos + r.text.length : Nat) : Int)
              push_cast
              omega
            · exact absurd hs (List.not_mem_nil seg))
      rw [hih]
      simp [List.map_append]

/-- The rebuilt paragraph content of a segment list carries the segment
texts. -/
theorem paragraphTextOf_segments (segs : List TextSegment) :
    paragraphTextOf (some (segs.map segmentToNode))
      = (segs.map TextSegment.text).flatten := by
  show ((segs.map segmentToNode).map (fun n => n.text.getD [])).flatten = _
  rw [List.map_map]
  congr 1

/-- Injecting a paragraph's own extracted annotations back into a paragraph
of marked runs preserves the paragraph text. -/
theorem injectParagraph_text (anns paraAnns : List Highlight)
    (rs : List MarkRun)
    (hne : rs ≠ [])
    (hpair : paraAnns.map pairOfH = rs.map pairOfRun)
    (hid : ∀ r ∈ rs, truthy r.attrs.id = true)
    (hlab : ∀ r ∈ rs, truthy r.attrs.labelType = true)
    (htext : ∀ r ∈ rs, r.text ≠ [])
    (hnd : (rs.map MarkRun.idOf).Nodup) :
    paragraphTextOf (injectParagraph anns (paraNodeOf rs) paraAnns).content
      = runsText rs := by
  have hlen := congrArg List.length hpair
  rw [List.length_map, List.length_map] at hlen
  have hpe : paraAnns.isEmpty = false := by
    cases hx : paraAnns with
    | nil =>
      exfalso
      rw [hx] at hlen
      cases hy : rs with
      | nil => exact hne hy
      | cons g tl => rw [hy] at hlen; simp at hlen
    | cons a l => rfl
  have hmerge : ∀ a ∈ paraAnns, ∃ g ∈ mkInjs rs 0,
      g.id = a.id ∧ g.text = a.text := by
    intro a ha
    have hpa : pairOfH a ∈ rs.map pairOfRun := by
      rw [← hpair]
      exact List.mem_map_of_mem pairOfH ha
    obtain ⟨r, hr, hpr⟩ := List.mem_map.mp hpa
    obtain ⟨g, hg, hgid, hgtext⟩ := mkInjs_mem_of_run rs 0 r hr
    refine ⟨g, hg, ?_, ?_⟩
    · rw [hgid]
      exact congrArg Prod.fst hpr
    · rw [hgtext]
      exact congrArg Prod.snd hpr
  have hndInj : ((mkInjs rs 0).map InjHL.id).Nodup := by
    rw [mkInjs_map_id]
    exact hnd
  have h3 : paraAnns.foldl (mergeAnnot (runsText rs)) (mkInjs rs 0)
      = mkInjs rs 0 :=
    merge_fold_noop (runsText rs) (mkInjs rs 0) hndInj paraAnns hmerge
  have h4 : (mkInjs rs 0).insertionSort (fun a b => a.startIndex ≤ b.startIndex)
      = mkInjs rs 0 :=
    List.Sorted.insertionSort_eq (mkInjs_sorted rs 0)
  have h5 : ((mkInjs rs 0).foldl (applyHighlight anns)
        [⟨runsText rs, [], 0⟩]).map TextSegment.text = rs.map MarkRun.text := by
    have hf := applyHighlight_fold anns rs 0 [] hne htext
      (by intro seg hs; exact absurd hs (List.not_mem_nil seg))
    rw [Nat.cast_zero] at hf
    simpa using hf
  rw [show paraNodeOf rs = DocNode.mk (some "paragraph".toList) none none
    (some (rs.map MarkRun.toNode)) from rfl]
  simp only [injectParagraph, bne_self_eq_false, Bool.false_eq_true, if_false,
    hpe, DocNode.content]
  rw [paragraphTextOf_markRuns,
    collectExisting_markRuns rs hid hlab htext, h3, h4,
    paragraphTextOf_segments, h5]
  rfl

/-- The paragraph indices keyed by the first-pass assignment map are
distinct. -/
theorem annotationsByParagraph_keys_nodup (paras : List DocNode)
    (anns : List Highlight) :
    ((annotationsByParagraph paras anns).map Prod.fst).Nodup := by
  rw [annotationsByParagraph_eq, List.map_map]
  show ((paras.enum.filter _).map Prod.fst).Nodup
  have hsub := (List.filter_sublist (l := paras.enum)
    (p := fun e => (e.2.type == some "paragraph".toList) &&
      !(annotationsFor e.2 anns).isEmpty)).map Prod.fst
  rw [List.enum_map_fst] at hsub
  exact (List.nodup_range paras.length).sublist hsub

/-- The plain text of a rebuilt document is the concatenation of its
paragraph texts. -/
theorem plainTextOfDoc_mk_some (L : List DocNode) :
    plainTextOfDoc ⟨some L⟩
      = (L.map (fun p => paragraphTextOf p.content)).flatten := rfl

/-- Re-injecting annotations whose (id, text) pairs mirror the runs of a
marked-run document preserves its plain text, provided ids are globally
distinct, ids and label types are truthy, run texts are non-empty, and no
run text occurs inside a different paragraph's text. -/
theorem inject_preserves_plainText (ps : List (List MarkRun))
    (anns : List Highlight)
    (hpair : anns.map pairOfH = ps.flatten.map pairOfRun)
    (hid : ∀ rs ∈ ps, ∀ r ∈ rs, truthy r.attrs.id = true)
    (hlab : ∀ rs ∈ ps, ∀ r ∈ rs, truthy r.attrs.labelType = true)
    (htext : ∀ rs ∈ ps, ∀ r ∈ rs, r.text ≠ [])
    (hnd : (ps.flatten.map MarkRun.idOf).Nodup)
    (halias : ∀ (i j : Nat) (rsi rsj : List MarkRun),
      ps[i]? = some rsi → ps[j]? = some rsj → i ≠ j →
      ∀ r ∈ rsi, jsIncludes (runsText rsj) r.text = false) :
    plainTextOfDoc (createDocumentWithMarks (docOfParas ps) anns)
      = plainTextOfDoc (docOfParas ps) := by
  by_cases hanns : anns.isEmpty
  · unfold createDocumentWithMarks
    rw [if_pos hanns]
  · have hkey : ∀ (i : Nat) (rsi : List MarkRun), ps[i]? = some rsi →
        paragraphTextOf
          (match assocGet (annotationsByParagraph (ps.map paraNodeOf) anns) i
            with
          | some assigned => injectParagraph anns (paraNodeOf rsi) assigned
          | none => paraNodeOf rsi).content = runsText rsi := by
      intro i rsi hi
      have hblock := annotationsFor_block ps anns i rsi hi hpair hid htext
        hnd halias
      have hrsimem : rsi ∈ ps := List.getElem?_mem hi
      by_cases hri : rsi = []
      · subst hri
        have hempty : annotationsFor (paraNodeOf []) anns = [] := by
          have := hblock
          rw [List.map_nil] at this
          exact List.map_eq_nil_iff.mp this
        have hnone : assocGet
            (annotationsByParagraph (ps.map paraNodeOf) anns) i = none := by
          rw [assocGet_eq_none_iff]
          intro entry hentry
          rw [annotationsByParagraph_eq] at hentry
          obtain ⟨e, hef, rfl⟩ := List.mem_map.mp hentry
          obtain ⟨hee, hpe⟩ := List.mem_filter.mp hef
          intro heq
          show False
          have hgot : (ps.map paraNodeOf)[e.1]? = some e.2 :=
            List.mem_enum_iff_getElem?.mp hee
          rw [heq, List.getElem?_map, hi] at hgot
          have he2 : e.2 = paraNodeOf [] := by
            injection hgot with hgot
            exact hgot.symm
          rw [he2, hempty] at hpe
          simp at hpe
        rw [hnone]
        rfl
      · have hassigned_ne : (annotationsFor (paraNodeOf rsi) anns).isEmpty
            = false := by
          cases hx : (annotationsFor (paraNodeOf rsi) anns).isEmpty with
          | false => rfl
          | true =>
            exfalso
            have hnil : annotationsFor (paraNodeOf rsi) anns = [] :=
              List.isEmpty_iff.mp hx
            rw [hnil, List.map_nil] at hblock
            cases hy : rsi with
            | nil => exact hri hy
            | cons g tl =>
              rw [hy, List.map_cons] at hblock
              exact List.noConfusion hblock
        have hmem : ((i : Nat), annotationsFor (paraNodeOf rsi) anns)
            ∈ annotationsByParagraph (ps.map paraNodeOf) anns := by
          rw [annotationsByParagraph_eq]
          have hee : ((i : Nat), paraNodeOf rsi) ∈ (ps.map paraNodeOf).enum := by
            rw [List.mem_enum_iff_getElem?]
            show (ps.map paraNodeOf)[i]? = some (paraNodeOf rsi)
            rw [List.getElem?_map, hi]
            rfl
          have hP : (((paraNodeOf rsi).type == some "paragraph".toList) &&
              !(annotationsFor (paraNodeOf rsi) anns).isEmpty) = true := by
            rw [show (paraNodeOf rsi).type = some "paragraph".toList from rfl]
            simp [hassigned_ne]
          exact List.mem_map.mpr ⟨(i, paraNodeOf rsi),
            List.mem_filter.mpr ⟨hee, hP⟩, rfl⟩
        have hsome : assocGet
            (annotationsByParagraph (ps.map paraNodeOf) anns) i
            = some (annotationsFor (paraNodeOf rsi) anns) :=
          (assocGet_eq_some_iff _
            (annotationsByParagraph_keys_nodup (ps.map paraNodeOf) anns)
            i _).mpr hmem
        rw [hsome]
        show paragraphTextOf (injectParagraph anns (paraNodeOf rsi)
          (annotationsFor (paraNodeOf rsi) anns)).content = runsText rsi
        exact injectParagraph_text anns (annotationsFor (paraNodeOf rsi) anns)
          rsi hri hblock
          (hid rsi hrsimem) (hlab rsi hrsimem) (htext rsi hrsimem)
          (nodup_flatten_block ps hnd rsi hrsimem)
    unfold createDocumentWithMarks
    rw [if_neg hanns]
    show plainTextOfDoc ⟨some ((ps.map paraNodeOf).enum.map (fun e =>
      match assocGet (annotationsByParagraph (ps.map paraNodeOf) anns) e.1 with
      | some assigned => injectParagraph anns e.2 assigned
      | none => e.2))⟩ = plainTextOfDoc (docOfParas ps)
    rw [plainTextOfDoc_docOfParas, plainTextOfDoc_mk_some, List.map_map]
    congr 1
    apply List.ext_getElem?
    intro n
    rw [List.getElem?_map, List.getElem?_enum, List.getElem?_map,
      List.getElem?_map]
    cases hn : ps[n]? with
    | none => rfl
    | some rsn =>
      show some _ = some (runsText rsn)
      congr 1
      exact hkey n rsn hn

/-- A run carrying the id x1 over the text "ab". -/
def runAB : MarkRun :=
  ⟨⟨some "x1".toList, some "claim".toList, some "claim".toList⟩, "ab".toList⟩

/-- A run carrying the id x2 over the text "a". -/
def runA : MarkRun :=
  ⟨⟨some "x2".toList, some "claim".toList, some "claim".toList⟩, "a".toList⟩

/-- A run carrying the id x3 over the text "b". -/
def runB : MarkRun :=
  ⟨⟨some "x3".toList, some "claim".toList, some "claim".toList⟩, "b".toList⟩

/-- A document whose first paragraph text "ab" contains the second
paragraph's run texts "a" and "b" as substrings. -/
def docAliased : RemirrorJSON := docOfParas [[runAB], [runA, runB]]

/-- C2 (amended): for a document of paragraphs made of non-empty annotated
runs with truthy distinct ids and truthy label types, extraction returns one
annotation record per run whose text equals the run text, in document
reading order; and, provided no run's text occurs as a substring of a
different paragraph's text, injecting the extracted list back into the same
document preserves the document's concatenated plain text. -/
theorem extract_inject_round_trip (ps : List (List MarkRun)) (reg : Registry)
    (hid : ∀ rs ∈ ps, ∀ r ∈ rs, truthy r.attrs.id = true)
    (hlab : ∀ rs ∈ ps, ∀ r ∈ rs, truthy r.attrs.labelType = true)
    (htext : ∀ rs ∈ ps, ∀ r ∈ rs, r.text ≠ [])
    (hnd : (ps.flatten.map MarkRun.idOf).Nodup)
    (halias : ∀ (i j : Nat) (rsi rsj : List MarkRun),
      ps[i]? = some rsi → ps[j]? = some rsj → i ≠ j →
      ∀ r ∈ rsi, jsIncludes (runsText rsj) r.text = false) :
    ((extractHighlightsFromContentMarks (docOfParas ps) [] [] reg).1).map
        (fun h => h.text) = ps.flatten.map MarkRun.text ∧
    plainTextOfDoc (createDocumentWithMarks (docOfParas ps)
        (extractHighlightsFromContentMarks (docOfParas ps) [] [] reg).1)
      = plainTextOfDoc (docOfParas ps) := by
  have hextr := extract_docOfParas ps [] [] reg htext hid hnd
    (fun rs _ r _ => List.not_mem_nil _)
  constructor
  · have hmap := congrArg (List.map (fun t : Str × Str × Str => t.2.2)) hextr
    rw [List.map_map, List.map_map] at hmap
    exact hmap
  · have hpair : ((extractHighlightsFromContentMarks
        (docOfParas ps) [] [] reg).1).map pairOfH
        = ps.flatten.map pairOfRun := by
      have hmap := congrArg
        (List.map (fun t : Str × Str × Str => (t.1, t.2.2))) hextr
      rw [List.map_map, List.map_map] at hmap
      exact hmap
    exact inject_preserves_plainText ps _ hpair hid hlab htext hnd halias

/-- C2 counterexample: when a run's text occurs inside a different
paragraph's text, the injection pass places that annotation by substring
search in the wrong paragraph, and the round trip changes the plain text:
for paragraphs "ab" and "a"+"b" (distinct ids), the rebuilt document reads
"ababb", not "abab". -/
theorem roundtrip_changes_aliased_text :
    plainTextOfDoc (createDocumentWithMarks docAliased
        (extractHighlightsFromContentMarks docAliased [] [] []).1)
      ≠ plainTextOfDoc docAliased ∧
    plainTextOfDoc (createDocumentWithMarks docAliased
        (extractHighlightsFromContentMarks docAliased [] [] []).1)
      = "ababb".toList ∧
    plainTextOfDoc docAliased = "abab".toList := by
  refine ⟨?_, ?_, ?_⟩ <;> decide

/-- Witness: the round trip at the two-paragraph document "a" / "b", whose
runs do not alias across paragraphs. -/
theorem extract_inject_round_trip_witness :
    plainTextOfDoc (createDocumentWithMarks (docOfParas [[runA], [runB]])
        (extractHighlightsFromContentMarks
          (docOfParas [[runA], [runB]]) [] [] []).1)
      = plainTextOfDoc (docOfParas [[runA], [runB]]) :=
  (extract_inject_round_trip [[runA], [runB]] []
    (by decide) (by decide) (by decide) (by decide)
    (by
      intro i j rsi rsj hi hj hij r hr
      match i, j with
      | 0, 0 => exact absurd rfl hij
      | 1, 1 => exact absurd rfl hij
      | 0, 1 =>
        rw [List.getElem?_cons_zero] at hi
        rw [List.getElem?_cons_succ, List.getElem?_cons_zero] at hj
        injection hi with hi
        injection hj with hj
        subst hi
        subst hj
        rcases List.mem_singleton.mp hr with rfl
        decide
      | 1, 0 =>
        rw [List.getElem?_cons_succ, List.getElem?_cons_zero] at hi
        rw [List.getElem?_cons_zero] at hj
        injection hi with hi
        injection hj with hj
        subst hi
        subst hj
        rcases List.mem_singleton.mp hr with rfl
        decide
      | 0, Nat.succ (Nat.succ j) => simp at hj
      | 1, Nat.succ (Nat.succ j) => simp at hj
      | Nat.succ (Nat.succ i), _ => simp at hi)).2

end Pensieve
